import Mathlib

/-!
Verification development for the Hookshot webhook delivery repository.

The repository contains two Go delivery clients (a simple one and a
context-aware one built on the cenkalti/backoff/v4 library), TypeScript
receivers (a plain HMAC one and a svix-based handler library), and an
event dispatcher.  This file gives a shallow embedding of the data model
and the algorithms those components implement, and proves the testable
properties stated in the specification against that embedding.

Conventions: strings are `List Char`; byte strings are `List Nat` with
each entry < 256; machine integers are `Nat`/`Int` with explicit
reduction modulo 2^32 where the source does 32-bit arithmetic.
-/

/-! ## JSON values

The wire body of every webhook is JSON.  `Json` models the value space:
numbers are kept as exact decimals (sign, integer part, fraction digits),
matching the textual form `JSON.stringify`/`json.Marshal` emit; no
floating-point arithmetic is ever performed on them by the source, so the
decimal model is faithful to what travels on the wire.  Strings and
object keys are lists of Unicode scalar values. -/
inductive Json where
  | null : Json
  | bool (b : Bool) : Json
  | num (neg : Bool) (ip : Nat) (frac : List (Fin 10)) : Json
  | str (s : List Char) : Json
  | arr (items : List Json) : Json
  | obj (fields : List (List Char × Json)) : Json

/-- Character for a single decimal digit `d < 10`. -/
def digitChar (d : Nat) : Char := Char.ofNat (48 + d)

/-- Decimal rendering of a natural number, most significant digit first,
as emitted by `JSON.stringify` for non-negative integers. -/
def emitNat (n : Nat) : List Char :=
  if n = 0 then ['0'] else ((Nat.digits 10 n).reverse).map digitChar

/-- Lowercase hex character for `d < 16`. -/
def hexDigitChar (d : Nat) : Char :=
  if d < 10 then Char.ofNat (48 + d) else Char.ofNat (87 + d)

/-- Escaping of one character inside a JSON string literal, following
`JSON.stringify`: quote and backslash get a backslash escape, the five
named control characters get their short forms, all other control
characters get a `\u00XX` escape, and everything else is emitted as is. -/
def escChar (c : Char) : List Char :=
  if c = '"' then ['\\', '"']
  else if c = '\\' then ['\\', '\\']
  else if c = Char.ofNat 8 then ['\\', 'b']
  else if c = Char.ofNat 9 then ['\\', 't']
  else if c = Char.ofNat 10 then ['\\', 'n']
  else if c = Char.ofNat 12 then ['\\', 'f']
  else if c = Char.ofNat 13 then ['\\', 'r']
  else if c.toNat < 32 then
    ['\\', 'u', '0', '0', hexDigitChar (c.toNat / 16), hexDigitChar (c.toNat % 16)]
  else [c]

/-- Escaped body of a JSON string literal. -/
def escape (s : List Char) : List Char := (s.map escChar).flatten

/-- Fraction digits of a JSON number, in order. -/
def emitFrac : List (Fin 10) → List Char
  | [] => []
  | d :: t => '.' :: (d :: t).map (fun x => digitChar x.val)

mutual
/-- Serialization of a JSON value, following the canonical output of
`JSON.stringify`: no whitespace, fields in order. -/
def emitVal : Json → List Char
  | .null => "null".data
  | .bool true => "true".data
  | .bool false => "false".data
  | .num neg ip frac =>
      (if neg then ['-'] else []) ++ emitNat ip ++ emitFrac frac
  | .str s => '"' :: (escape s ++ ['"'])
  | .arr items => '[' :: (emitItems items ++ [']'])
  | .obj fields => '{' :: (emitFields fields ++ ['}'])

/-- Comma-separated serialization of array elements. -/
def emitItems : List Json → List Char
  | [] => []
  | [j] => emitVal j
  | j :: j2 :: rest => emitVal j ++ ',' :: emitItems (j2 :: rest)

/-- Comma-separated serialization of object members. -/
def emitFields : List (List Char × Json) → List Char
  | [] => []
  | [(k, v)] => '"' :: (escape k ++ '"' :: ':' :: emitVal v)
  | (k, v) :: f2 :: rest =>
      '"' :: (escape k ++ '"' :: ':' :: emitVal v) ++ ',' :: emitFields (f2 :: rest)
end

/-! ## JSON parsing

A model of `JSON.parse` restricted to the forms the serializer emits
(numbers without exponent notation; no lone UTF-16 surrogates, which a
Lean `Char` cannot carry).  The value-level functions are fuel-indexed;
the top-level entry point supplies fuel `length + 1`, which the
sufficiency lemmas below show is always enough for a serialized value. -/

/-- JSON insignificant whitespace. -/
def isWs (c : Char) : Bool :=
  c = ' ' || c = Char.ofNat 9 || c = Char.ofNat 10 || c = Char.ofNat 13

/-- Drop leading whitespace. -/
def skipWs : List Char → List Char
  | [] => []
  | c :: cs => if isWs c then skipWs cs else c :: cs

/-- Decimal digit test. -/
def isDigit (c : Char) : Bool := decide (48 ≤ c.toNat ∧ c.toNat ≤ 57)

/-- Value of a decimal digit character. -/
def digitVal (c : Char) : Nat := c.toNat - 48

/-- Greedy run of decimal digits folded onto an accumulator. -/
def readDigits : List Char → Nat → Nat × List Char
  | [], acc => (acc, [])
  | c :: cs, acc =>
      if isDigit c then readDigits cs (acc * 10 + digitVal c) else (acc, c :: cs)

/-- Read a natural number (at least one digit required). -/
def readNat : List Char → Option (Nat × List Char)
  | [] => none
  | c :: cs => if isDigit c then some (readDigits cs (digitVal c)) else none

theorem digitVal_lt_of_isDigit {c : Char} (h : isDigit c = true) : digitVal c < 10 := by
  have h' := of_decide_eq_true h
  simp only [digitVal]
  omega

/-- Greedy run of fraction digits, kept in order as bounded digits. -/
def readFracDigits : List Char → List (Fin 10) × List Char
  | [] => ([], [])
  | c :: cs =>
      if h : isDigit c then
        let p := readFracDigits cs
        (⟨digitVal c, digitVal_lt_of_isDigit h⟩ :: p.1, p.2)
      else ([], c :: cs)

/-- Hex digit value accepted by the `\uXXXX` escape form. -/
def hexVal (c : Char) : Option Nat :=
  if 48 ≤ c.toNat ∧ c.toNat ≤ 57 then some (c.toNat - 48)
  else if 97 ≤ c.toNat ∧ c.toNat ≤ 102 then some (c.toNat - 87)
  else if 65 ≤ c.toNat ∧ c.toNat ≤ 70 then some (c.toNat - 55)
  else none

/-- Single-character escapes accepted after a backslash. -/
def unescChar (e : Char) : Option Char :=
  if e = '"' then some '"'
  else if e = '\\' then some '\\'
  else if e = '/' then some '/'
  else if e = 'b' then some (Char.ofNat 8)
  else if e = 't' then some (Char.ofNat 9)
  else if e = 'n' then some (Char.ofNat 10)
  else if e = 'f' then some (Char.ofNat 12)
  else if e = 'r' then some (Char.ofNat 13)
  else none

/-- Body of a JSON string literal after the opening quote: returns the
decoded characters and the input following the closing quote. -/
def parseStringBody : List Char → Option (List Char × List Char)
  | [] => none
  | c :: cs =>
      if c = '"' then some ([], cs)
      else if c = '\\' then
        match cs with
        | 'u' :: h1 :: h2 :: h3 :: h4 :: cs2 =>
            (hexVal h1).bind fun d1 =>
            (hexVal h2).bind fun d2 =>
            (hexVal h3).bind fun d3 =>
            (hexVal h4).bind fun d4 =>
            let n := ((d1 * 16 + d2) * 16 + d3) * 16 + d4
            if 55296 ≤ n ∧ n < 57344 then none
            else (parseStringBody cs2).map fun p => (Char.ofNat n :: p.1, p.2)
        | e :: cs2 =>
            (unescChar e).bind fun d =>
            (parseStringBody cs2).map fun p => (d :: p.1, p.2)
        | [] => none
      else if c.toNat < 32 then none
      else (parseStringBody cs).map fun p => (c :: p.1, p.2)

/-- Number parse after an optional leading minus sign has been consumed. -/
def parseNum (neg : Bool) (cs : List Char) : Option (Json × List Char) :=
  match readNat cs with
  | none => none
  | some (ip, rest) =>
      match rest with
      | [] => some (.num neg ip [], [])
      | c :: rest2 =>
          if c = '.' then
            match rest2 with
            | [] => none
            | c2 :: _ =>
                if isDigit c2 then
                  let p := readFracDigits rest2
                  some (.num neg ip p.1, p.2)
                else none
          else some (.num neg ip [], c :: rest2)

/-- Consume an expected literal character sequence. -/
def expectChars : List Char → List Char → Option (List Char)
  | [], input => some input
  | _ :: _, [] => none
  | p :: ps, c :: cs => if c = p then expectChars ps cs else none

mutual
/-- Fuel-indexed JSON value parser. -/
def parseVal : Nat → List Char → Option (Json × List Char)
  | 0, _ => none
  | fuel + 1, cs =>
      match skipWs cs with
      | [] => none
      | c :: rest =>
          if c = 'n' then (expectChars ['u', 'l', 'l'] rest).map (fun r => (.null, r))
          else if c = 't' then (expectChars ['r', 'u', 'e'] rest).map (fun r => (.bool true, r))
          else if c = 'f' then (expectChars ['a', 'l', 's', 'e'] rest).map (fun r => (.bool false, r))
          else if c = '"' then (parseStringBody rest).map (fun p => (.str p.1, p.2))
          else if c = '[' then
            match skipWs rest with
            | [] => none
            | c2 :: rest2 =>
                if c2 = ']' then some (.arr [], rest2)
                else (parseItemsLoop fuel (c2 :: rest2)).map (fun p => (.arr p.1, p.2))
          else if c = '{' then
            match skipWs rest with
            | [] => none
            | c2 :: rest2 =>
                if c2 = '}' then some (.obj [], rest2)
                else (parseFieldsLoop fuel (c2 :: rest2)).map (fun p => (.obj p.1, p.2))
          else if c = '-' then parseNum true rest
          else if isDigit c then parseNum false (c :: rest)
          else none

/-- Elements of a non-empty array, up to and including the closing bracket. -/
def parseItemsLoop : Nat → List Char → Option (List Json × List Char)
  | 0, _ => none
  | fuel + 1, cs =>
      (parseVal fuel cs).bind fun pj =>
      match skipWs pj.2 with
      | [] => none
      | c :: rest2 =>
          if c = ',' then
            (parseItemsLoop fuel rest2).map fun p => (pj.1 :: p.1, p.2)
          else if c = ']' then some ([pj.1], rest2)
          else none

/-- Members of a non-empty object, up to and including the closing brace. -/
def parseFieldsLoop : Nat → List Char → Option (List (List Char × Json) × List Char)
  | 0, _ => none
  | fuel + 1, cs =>
      match skipWs cs with
      | [] => none
      | c :: rest =>
          if c = '"' then
            (parseStringBody rest).bind fun pk =>
            match skipWs pk.2 with
            | [] => none
            | c2 :: rest2 =>
                if c2 = ':' then
                  (parseVal fuel rest2).bind fun pv =>
                  match skipWs pv.2 with
                  | [] => none
                  | c3 :: rest4 =>
                      if c3 = ',' then
                        (parseFieldsLoop fuel rest4).map fun p => ((pk.1, pv.1) :: p.1, p.2)
                      else if c3 = '}' then some ([(pk.1, pv.1)], rest4)
                      else none
                else none
          else none
end

/-- Top-level model of `JSON.parse`: parse one value and require that only
whitespace follows. -/
def parseJson (cs : List Char) : Option Json :=
  match parseVal (cs.length + 1) cs with
  | some (j, rest) => if skipWs rest = [] then some j else none
  | none => none

/-! ## Round-trip correctness of the JSON model

`parseJson (emitVal j) = some j`: the receiver's parse of the sender's
serialized body returns the payload unchanged.  Proven by strong induction
on the parser fuel. -/

theorem toNat_ofNat_valid (n : Nat) (h : n.isValidChar) : (Char.ofNat n).toNat = n := by
  simp [Char.ofNat, h, Char.ofNatAux, Char.toNat, UInt32.toNat, BitVec.toNat_ofNatLt]

theorem char_ne_of_toNat_ne {c d : Char} (h : c.toNat ≠ d.toNat) : c ≠ d :=
  fun he => h (by rw [he])

theorem toNat_digitChar {d : Nat} (h : d < 10) : (digitChar d).toNat = 48 + d := by
  exact toNat_ofNat_valid _ (Or.inl (by omega))

theorem isDigit_digitChar {d : Nat} (h : d < 10) : isDigit (digitChar d) = true := by
  simp [isDigit, toNat_digitChar h]
  omega

theorem digitVal_digitChar {d : Nat} (h : d < 10) : digitVal (digitChar d) = d := by
  simp [digitVal, toNat_digitChar h]

theorem toNat_of_isDigit {c : Char} (h : isDigit c = true) : 48 ≤ c.toNat ∧ c.toNat ≤ 57 :=
  of_decide_eq_true h

theorem isDigit_false_of_toNat {c : Char} (h : c.toNat < 48 ∨ 57 < c.toNat) : isDigit c = false := by
  simp [isDigit]
  omega

theorem skipWs_cons {c : Char} {cs : List Char} (h : isWs c = false) :
    skipWs (c :: cs) = c :: cs := by
  simp [skipWs, h]

theorem isWs_of_isDigit {c : Char} (h : isDigit c = true) : isWs c = false := by
  have h' := toNat_of_isDigit h
  simp only [isWs, Bool.or_eq_false_iff, decide_eq_false_iff_not]
  refine ⟨⟨⟨?_, ?_⟩, ?_⟩, ?_⟩ <;> exact char_ne_of_toNat_ne (by simp; omega)

theorem readDigits_stop {rest : List Char} (acc : Nat)
    (h : rest = [] ∨ ∃ c cs, rest = c :: cs ∧ isDigit c = false) :
    readDigits rest acc = (acc, rest) := by
  rcases h with h | ⟨c, cs, rfl, hc⟩
  · subst h; simp [readDigits]
  · simp [readDigits, hc]

theorem readDigits_append (ds : List Nat) (h : ∀ d ∈ ds, d < 10) (acc : Nat) (rest : List Char) :
    readDigits (ds.map digitChar ++ rest) acc
      = readDigits rest (ds.foldl (fun a d => a * 10 + d) acc) := by
  induction ds generalizing acc with
  | nil => simp
  | cons d t ih =>
      have hd : d < 10 := h d (by simp)
      have ht : ∀ x ∈ t, x < 10 := fun x hx => h x (by simp [hx])
      simp only [List.map_cons, List.cons_append, List.foldl_cons]
      rw [readDigits, if_pos (isDigit_digitChar hd), digitVal_digitChar hd]
      exact ih ht _

theorem foldl_reverse_digits (l : List Nat) (acc : Nat) :
    l.reverse.foldl (fun a d => a * 10 + d) acc = acc * 10 ^ l.length + Nat.ofDigits 10 l := by
  induction l generalizing acc with
  | nil => simp
  | cons d t ih =>
      simp only [List.reverse_cons, List.foldl_append, List.foldl_cons, List.foldl_nil,
        Nat.ofDigits_cons, List.length_cons]
      rw [ih]
      ring

/-- Boundary condition after a serialized number: the following input must
not begin with a digit or a decimal point. -/
def numBoundary : List Char → Bool
  | [] => true
  | c :: _ => !isDigit c && !(c = '.')

theorem numBoundary_not_digit {c : Char} {cs : List Char} (h : numBoundary (c :: cs) = true) :
    isDigit c = false ∧ c ≠ '.' := by
  simp [numBoundary] at h
  exact ⟨h.1, h.2⟩

theorem readNat_emitNat (n : Nat) (rest : List Char)
    (h : rest = [] ∨ ∃ c cs, rest = c :: cs ∧ isDigit c = false) :
    readNat (emitNat n ++ rest) = some (n, rest) := by
  by_cases hn : n = 0
  · subst hn
    have h0 : emitNat 0 = [Char.ofNat 48] := rfl
    rw [h0]
    simp only [List.cons_append, List.nil_append, readNat]
    rw [if_pos (by decide : isDigit (Char.ofNat 48) = true)]
    rw [readDigits_stop _ h]
    norm_num [digitVal]
    decide
  · rw [emitNat, if_neg hn]
    have hne : (Nat.digits 10 n).reverse ≠ [] := by
      simp [Nat.digits_ne_nil_iff_ne_zero, hn]
    obtain ⟨d, ds, hds⟩ := List.exists_cons_of_ne_nil hne
    have hmem : ∀ x ∈ (Nat.digits 10 n).reverse, x < 10 := by
      intro x hx
      exact Nat.digits_lt_base (by norm_num) (List.mem_reverse.mp hx)
    have hd10 : d < 10 := hmem d (by rw [hds]; simp)
    have hds10 : ∀ x ∈ ds, x < 10 := fun x hx => hmem x (by rw [hds]; simp [hx])
    rw [hds]
    simp only [List.map_cons, List.cons_append]
    simp only [readNat]
    rw [if_pos (isDigit_digitChar hd10), digitVal_digitChar hd10]
    rw [readDigits_append ds hds10, readDigits_stop _ h]
    have : (d :: ds).foldl (fun a x => a * 10 + x) 0 = n := by
      rw [← hds, foldl_reverse_digits]
      simp [Nat.ofDigits_digits]
    simpa using this

theorem readFracDigits_stop {rest : List Char}
    (h : rest = [] ∨ ∃ c cs, rest = c :: cs ∧ isDigit c = false) :
    readFracDigits rest = ([], rest) := by
  rcases h with h | ⟨c, cs, rfl, hc⟩
  · subst h; simp [readFracDigits]
  · simp [readFracDigits, hc]

theorem readFracDigits_emit (frac : List (Fin 10)) (rest : List Char)
    (h : rest = [] ∨ ∃ c cs, rest = c :: cs ∧ isDigit c = false) :
    readFracDigits (frac.map (fun d => digitChar d.val) ++ rest) = (frac, rest) := by
  induction frac with
  | nil => simpa using readFracDigits_stop h
  | cons d t ih =>
      simp only [List.map_cons, List.cons_append]
      rw [readFracDigits]
      rw [dif_pos (isDigit_digitChar d.isLt)]
      simp only [ih]
      congr 1
      · congr 1
        exact Fin.ext (digitVal_digitChar d.isLt)

theorem parseNum_emit (neg : Bool) (ip : Nat) (frac : List (Fin 10)) (rest : List Char)
    (h : numBoundary rest = true) :
    parseNum neg (emitNat ip ++ emitFrac frac ++ rest) = some (.num neg ip frac, rest) := by
  have hstop : ∀ r : List Char, numBoundary r = true →
      r = [] ∨ ∃ c cs, r = c :: cs ∧ isDigit c = false := by
    intro r hr
    cases r with
    | nil => exact Or.inl rfl
    | cons c cs => exact Or.inr ⟨c, cs, rfl, (numBoundary_not_digit hr).1⟩
  cases frac with
  | nil =>
      simp only [emitFrac, List.append_nil]
      rw [parseNum, readNat_emitNat ip rest (hstop rest h)]
      cases rest with
      | nil => rfl
      | cons c cs =>
          obtain ⟨h1, h2⟩ := numBoundary_not_digit h
          simp [h2]
  | cons d t =>
      rw [emitFrac]
      simp only [List.append_assoc, List.cons_append]
      rw [parseNum, readNat_emitNat ip _ (Or.inr ⟨'.', _, rfl, by decide⟩)]
      have hfrac := readFracDigits_emit (d :: t) rest (hstop rest h)
      simp only [List.map_cons, List.cons_append] at hfrac
      simp only [if_true, ite_true, List.map_cons, List.cons_append]
      rw [if_pos (isDigit_digitChar d.isLt)]
      simp [hfrac]

theorem hexVal_hexDigitChar {d : Nat} (h : d < 16) : hexVal (hexDigitChar d) = some d := by
  by_cases h10 : d < 10
  · have ht : (hexDigitChar d).toNat = 48 + d := by
      rw [hexDigitChar, if_pos h10]
      exact toNat_ofNat_valid _ (Or.inl (by omega))
    simp only [hexVal, ht]
    rw [if_pos (by omega : 48 ≤ 48 + d ∧ 48 + d ≤ 57)]
    congr 1
    omega
  · have ht : (hexDigitChar d).toNat = 87 + d := by
      rw [hexDigitChar, if_neg h10]
      exact toNat_ofNat_valid _ (Or.inl (by omega))
    simp only [hexVal, ht]
    rw [if_neg (by omega : ¬(48 ≤ 87 + d ∧ 87 + d ≤ 57))]
    rw [if_pos (by omega : 97 ≤ 87 + d ∧ 87 + d ≤ 102)]
    congr 1
    omega


theorem parseStringBody_cons (c : Char) (cs : List Char) (h1 : ¬c = '"') (h2 : ¬c = '\\')
    (h3 : ¬c.toNat < 32) :
    parseStringBody (c :: cs) = (parseStringBody cs).map fun p => (c :: p.1, p.2) := by
  rw [parseStringBody.eq_def]
  simp only [if_neg h1, if_neg h2, if_neg h3]

theorem parseStringBody_escape (s rest : List Char) :
    parseStringBody (escape s ++ '"' :: rest) = some (s, rest) := by
  induction s with
  | nil =>
      have h0 : escape [] = [] := rfl
      rw [h0, List.nil_append, parseStringBody.eq_def]
      simp
  | cons c t ih =>
      have hesc : escape (c :: t) = escChar c ++ escape t := by simp [escape]
      rw [hesc, List.append_assoc]
      by_cases h1 : c = '"'
      · subst h1
        have he : escChar '"' = ['\\', '"'] := rfl
        have hstep : ∀ X, parseStringBody ('\\' :: '"' :: X)
            = (parseStringBody X).map fun p => ('"' :: p.1, p.2) := fun X => rfl
        rw [he, List.cons_append, List.cons_append, List.nil_append, hstep, ih]
        rfl
      · by_cases h2 : c = '\\'
        · subst h2
          have he : escChar '\\' = ['\\', '\\'] := rfl
          have hstep : ∀ X, parseStringBody ('\\' :: '\\' :: X)
              = (parseStringBody X).map fun p => ('\\' :: p.1, p.2) := fun X => rfl
          rw [he, List.cons_append, List.cons_append, List.nil_append, hstep, ih]
          rfl
        · by_cases hb8 : c = Char.ofNat 8
          · subst hb8
            have he : escChar (Char.ofNat 8) = ['\\', 'b'] := rfl
            have hstep : ∀ X, parseStringBody ('\\' :: 'b' :: X)
                = (parseStringBody X).map fun p => (Char.ofNat 8 :: p.1, p.2) := fun X => rfl
            rw [he, List.cons_append, List.cons_append, List.nil_append, hstep, ih]
            rfl
          · by_cases hb9 : c = Char.ofNat 9
            · subst hb9
              have he : escChar (Char.ofNat 9) = ['\\', 't'] := rfl
              have hstep : ∀ X, parseStringBody ('\\' :: 't' :: X)
                  = (parseStringBody X).map fun p => (Char.ofNat 9 :: p.1, p.2) := fun X => rfl
              rw [he, List.cons_append, List.cons_append, List.nil_append, hstep, ih]
              rfl
            · by_cases hb10 : c = Char.ofNat 10
              · subst hb10
                have he : escChar (Char.ofNat 10) = ['\\', 'n'] := rfl
                have hstep : ∀ X, parseStringBody ('\\' :: 'n' :: X)
                    = (parseStringBody X).map fun p => (Char.ofNat 10 :: p.1, p.2) := fun X => rfl
                rw [he, List.cons_append, List.cons_append, List.nil_append, hstep, ih]
                rfl
              · by_cases hb12 : c = Char.ofNat 12
                · subst hb12
                  have he : escChar (Char.ofNat 12) = ['\\', 'f'] := rfl
                  have hstep : ∀ X, parseStringBody ('\\' :: 'f' :: X)
                      = (parseStringBody X).map fun p => (Char.ofNat 12 :: p.1, p.2) := fun X => rfl
                  rw [he, List.cons_append, List.cons_append, List.nil_append, hstep, ih]
                  rfl
                · by_cases hb13 : c = Char.ofNat 13
                  · subst hb13
                    have he : escChar (Char.ofNat 13) = ['\\', 'r'] := rfl
                    have hstep : ∀ X, parseStringBody ('\\' :: 'r' :: X)
                        = (parseStringBody X).map fun p => (Char.ofNat 13 :: p.1, p.2) := fun X => rfl
                    rw [he, List.cons_append, List.cons_append, List.nil_append, hstep, ih]
                    rfl
                  · by_cases hlt : c.toNat < 32
                    · have he : escChar c =
                          ['\\', 'u', '0', '0', hexDigitChar (c.toNat / 16),
                            hexDigitChar (c.toNat % 16)] := by
                        rw [escChar, if_neg h1, if_neg h2, if_neg hb8, if_neg hb9,
                          if_neg hb10, if_neg hb12, if_neg hb13, if_pos hlt]
                      have hstep : ∀ (a b : Char) (X : List Char),
                          parseStringBody ('\\' :: 'u' :: '0' :: '0' :: a :: b :: X)
                            = (hexVal a).bind fun d3 =>
                              (hexVal b).bind fun d4 =>
                              let n := ((0 * 16 + 0) * 16 + d3) * 16 + d4
                              if 55296 ≤ n ∧ n < 57344 then none
                              else (parseStringBody X).map fun p =>
                                (Char.ofNat n :: p.1, p.2) := fun a b X => rfl
                      rw [he]
                      rw [List.cons_append, List.cons_append, List.cons_append,
                        List.cons_append, List.cons_append, List.cons_append, List.nil_append]
                      rw [hstep, hexVal_hexDigitChar (by omega), hexVal_hexDigitChar (by omega)]
                      have hn : ((0 * 16 + 0) * 16 + c.toNat / 16) * 16 + c.toNat % 16
                          = c.toNat := by omega
                      simp only [Option.some_bind, hn]
                      rw [if_neg (by omega : ¬(55296 ≤ c.toNat ∧ c.toNat < 57344))]
                      rw [ih, Char.ofNat_toNat]
                      rfl
                    · have he : escChar c = [c] := by
                        rw [escChar, if_neg h1, if_neg h2, if_neg hb8, if_neg hb9,
                          if_neg hb10, if_neg hb12, if_neg hb13, if_neg hlt]
                      rw [he, List.cons_append, List.nil_append,
                        parseStringBody_cons c _ h1 h2 hlt, ih]
                      rfl

mutual
/-- Fuel requirement of `parseVal` on a serialized value. -/
def sizeV : Json → Nat
  | .null => 1
  | .bool _ => 1
  | .num _ _ _ => 1
  | .str _ => 1
  | .arr [] => 1
  | .arr (j :: js) => 1 + sizeL (j :: js)
  | .obj [] => 1
  | .obj (f :: fs) => 1 + sizeF (f :: fs)

/-- Fuel requirement of `parseItemsLoop` on serialized array elements. -/
def sizeL : List Json → Nat
  | [] => 0
  | j :: js => 1 + max (sizeV j) (sizeL js)

/-- Fuel requirement of `parseFieldsLoop` on serialized object members. -/
def sizeF : List (List Char × Json) → Nat
  | [] => 0
  | (_, v) :: fs => 1 + max (sizeV v) (sizeF fs)
end

theorem sizeV_pos (j : Json) : 1 ≤ sizeV j := by
  cases j with
  | arr items => cases items <;> simp [sizeV]
  | obj fields => cases fields <;> simp [sizeV]
  | _ => simp [sizeV]

theorem mem_emitNat_digit {n : Nat} {c : Char} (h : c ∈ emitNat n) : isDigit c = true := by
  rw [emitNat] at h
  by_cases hn : n = 0
  · rw [if_pos hn] at h
    simp at h
    subst h
    decide
  · rw [if_neg hn] at h
    simp only [List.mem_map] at h
    obtain ⟨d, hd, rfl⟩ := h
    exact isDigit_digitChar (Nat.digits_lt_base (by norm_num) (List.mem_reverse.mp hd))

theorem emitNat_ne_nil (n : Nat) : emitNat n ≠ [] := by
  rw [emitNat]
  by_cases hn : n = 0
  · rw [if_pos hn]; simp
  · rw [if_neg hn]
    simp [Nat.digits_ne_nil_iff_ne_zero, hn]

/-- Start characters of serialized values: never whitespace and never a
closing bracket or brace. -/
theorem emitVal_head (j : Json) :
    ∃ c cs, emitVal j = c :: cs ∧ isWs c = false ∧ ¬c = ']' ∧ ¬c = '}' := by
  cases j with
  | null => exact ⟨'n', ['u', 'l', 'l'], by simp [emitVal], by decide, by decide, by decide⟩
  | bool b =>
      cases b with
      | true => exact ⟨'t', ['r', 'u', 'e'], by simp [emitVal], by decide, by decide, by decide⟩
      | false =>
          exact ⟨'f', ['a', 'l', 's', 'e'], by simp [emitVal], by decide, by decide, by decide⟩
  | num neg ip frac =>
      cases neg with
      | true =>
          refine ⟨'-', emitNat ip ++ emitFrac frac, ?_, by decide, by decide, by decide⟩
          simp [emitVal]
      | false =>
          obtain ⟨c, cs, hc⟩ := List.exists_cons_of_ne_nil (emitNat_ne_nil ip)
          have hdig : isDigit c = true := mem_emitNat_digit (by rw [hc]; simp)
          have ht := toNat_of_isDigit hdig
          refine ⟨c, cs ++ emitFrac frac, ?_, isWs_of_isDigit hdig, ?_, ?_⟩
          · simp [emitVal, hc]
          · exact char_ne_of_toNat_ne (by simp; omega)
          · exact char_ne_of_toNat_ne (by simp; omega)
  | str s =>
      exact ⟨'"', escape s ++ ['"'], by simp [emitVal], by decide, by decide, by decide⟩
  | arr items =>
      cases items with
      | nil =>
          exact ⟨'[', [']'], by simp [emitVal, emitItems], by decide, by decide, by decide⟩
      | cons j js =>
          exact ⟨'[', emitItems (j :: js) ++ [']'], by simp [emitVal],
            by decide, by decide, by decide⟩
  | obj fields =>
      cases fields with
      | nil =>
          exact ⟨'{', ['}'], by simp [emitVal, emitFields], by decide, by decide, by decide⟩
      | cons f fs =>
          exact ⟨'{', emitFields (f :: fs) ++ ['}'], by simp [emitVal],
            by decide, by decide, by decide⟩


theorem emitItems_cons (j : Json) (js : List Json) :
    ∃ tail, emitItems (j :: js) = emitVal j ++ tail := by
  cases js with
  | nil => exact ⟨[], by simp [emitItems]⟩
  | cons j2 t2 => exact ⟨',' :: emitItems (j2 :: t2), by simp [emitItems]⟩

theorem emitFields_cons (k : List Char) (v : Json) (fs : List (List Char × Json)) :
    ∃ tail, emitFields ((k, v) :: fs) = '"' :: (escape k ++ '"' :: ':' :: (emitVal v ++ tail)) := by
  cases fs with
  | nil => exact ⟨[], by simp [emitFields]⟩
  | cons f2 t2 => exact ⟨',' :: emitFields (f2 :: t2), by simp [emitFields]⟩

theorem parse_emit (f : Nat) :
    (∀ j rest, numBoundary rest = true → sizeV j ≤ f →
      parseVal f (emitVal j ++ rest) = some (j, rest)) ∧
    (∀ js rest, js ≠ [] → sizeL js ≤ f →
      parseItemsLoop f (emitItems js ++ ']' :: rest) = some (js, rest)) ∧
    (∀ fs rest, fs ≠ [] → sizeF fs ≤ f →
      parseFieldsLoop f (emitFields fs ++ '}' :: rest) = some (fs, rest)) := by
  induction f using Nat.strong_induction_on with
  | _ f ih =>
  refine ⟨?_, ?_, ?_⟩
  · intro j rest hb hle
    have hf : 1 ≤ f := le_trans (sizeV_pos j) hle
    obtain ⟨f', rfl⟩ : ∃ f', f = f' + 1 := ⟨f - 1, by omega⟩
    cases j with
    | null =>
        have he : emitVal .null = ['n', 'u', 'l', 'l'] := by simp [emitVal]
        rw [he, parseVal]
        simp [skipWs, isWs, expectChars]
    | bool b =>
        cases b with
        | true =>
            have he : emitVal (.bool true) = ['t', 'r', 'u', 'e'] := by simp [emitVal]
            rw [he, parseVal]
            simp [skipWs, isWs, expectChars]
        | false =>
            have he : emitVal (.bool false) = ['f', 'a', 'l', 's', 'e'] := by simp [emitVal]
            rw [he, parseVal]
            simp [skipWs, isWs, expectChars]
    | str s =>
        have he : emitVal (.str s) = '"' :: (escape s ++ ['"']) := by simp [emitVal]
        rw [he]
        simp only [List.cons_append, List.append_assoc, List.singleton_append, List.nil_append]
        rw [parseVal, skipWs_cons (by decide)]
        simp only []
        rw [if_neg (by decide : ¬('"' : Char) = 'n'),
          if_neg (by decide : ¬('"' : Char) = 't'),
          if_neg (by decide : ¬('"' : Char) = 'f')]
        simp only [if_true, List.nil_append]
        rw [parseStringBody_escape]
        rfl
    | num neg ip frac =>
        cases neg with
        | true =>
            have he : emitVal (.num true ip frac) = '-' :: (emitNat ip ++ emitFrac frac) := by
              simp [emitVal]
            rw [he]
            simp only [List.cons_append, List.append_assoc]
            rw [parseVal, skipWs_cons (by decide)]
            simp only []
            rw [if_neg (by decide : ¬('-' : Char) = 'n'),
              if_neg (by decide : ¬('-' : Char) = 't'),
              if_neg (by decide : ¬('-' : Char) = 'f'),
              if_neg (by decide : ¬('-' : Char) = '"'),
              if_neg (by decide : ¬('-' : Char) = '['),
              if_neg (by decide : ¬('-' : Char) = '{')]
            simp only [if_true]
            have := parseNum_emit true ip frac rest hb
            simpa [List.append_assoc] using this
        | false =>
            have he : emitVal (.num false ip frac) = emitNat ip ++ emitFrac frac := by
              simp [emitVal]
            obtain ⟨c, cs, hc⟩ := List.exists_cons_of_ne_nil (emitNat_ne_nil ip)
            have hdig : isDigit c = true := mem_emitNat_digit (by rw [hc]; simp)
            have ht := toNat_of_isDigit hdig
            rw [he, hc]
            simp only [List.cons_append, List.append_assoc]
            rw [parseVal, skipWs_cons (isWs_of_isDigit hdig)]
            simp only []
            rw [if_neg (char_ne_of_toNat_ne (by simp; omega) : ¬c = 'n'),
              if_neg (char_ne_of_toNat_ne (by simp; omega) : ¬c = 't'),
              if_neg (char_ne_of_toNat_ne (by simp; omega) : ¬c = 'f'),
              if_neg (char_ne_of_toNat_ne (by simp; omega) : ¬c = '"'),
              if_neg (char_ne_of_toNat_ne (by simp; omega) : ¬c = '['),
              if_neg (char_ne_of_toNat_ne (by simp; omega) : ¬c = '{'),
              if_neg (char_ne_of_toNat_ne (by simp; omega) : ¬c = '-'),
              if_pos hdig]
            have hback : c :: (cs ++ (emitFrac frac ++ rest))
                = emitNat ip ++ emitFrac frac ++ rest := by
              rw [hc]
              simp [List.append_assoc]
            rw [hback]
            exact parseNum_emit false ip frac rest hb
    | arr items =>
        cases items with
        | nil =>
            have he : emitVal (.arr []) = ['[', ']'] := by simp [emitVal, emitItems]
            rw [he, parseVal]
            simp [skipWs, isWs]
        | cons j0 js =>
            have he : emitVal (.arr (j0 :: js)) = '[' :: (emitItems (j0 :: js) ++ [']']) := by
              simp [emitVal]
            rw [he]
            simp only [List.cons_append, List.append_assoc, List.singleton_append, List.nil_append]
            rw [parseVal, skipWs_cons (by decide)]
            simp only []
            rw [if_neg (by decide : ¬('[' : Char) = 'n'),
              if_neg (by decide : ¬('[' : Char) = 't'),
              if_neg (by decide : ¬('[' : Char) = 'f'),
              if_neg (by decide : ¬('[' : Char) = '"')]
            simp only [if_true]
            obtain ⟨tail, htail⟩ := emitItems_cons j0 js
            obtain ⟨c0, cs0, hc0, hws0, hne0, hne0b⟩ := emitVal_head j0
            have hsplit : emitItems (j0 :: js) ++ ']' :: rest
                = c0 :: (cs0 ++ (tail ++ ']' :: rest)) := by
              rw [htail, hc0]
              simp [List.append_assoc]
            rw [hsplit, skipWs_cons hws0]
            simp only []
            rw [if_neg hne0, ← hsplit]
            have hs : sizeL (j0 :: js) ≤ f' := by
              have : sizeV (.arr (j0 :: js)) = 1 + sizeL (j0 :: js) := by simp [sizeV]
              omega
            rw [(ih f' (by omega)).2.1 (j0 :: js) rest (by simp) hs]
            rfl
    | obj fields =>
        cases fields with
        | nil =>
            have he : emitVal (.obj []) = ['{', '}'] := by simp [emitVal, emitFields]
            rw [he, parseVal]
            simp [skipWs, isWs]
        | cons fld fs =>
            obtain ⟨k, v⟩ := fld
            have he : emitVal (.obj ((k, v) :: fs))
                = '{' :: (emitFields ((k, v) :: fs) ++ ['}']) := by
              simp [emitVal]
            rw [he]
            simp only [List.cons_append, List.append_assoc, List.singleton_append, List.nil_append]
            rw [parseVal, skipWs_cons (by decide)]
            simp only []
            rw [if_neg (by decide : ¬('{' : Char) = 'n'),
              if_neg (by decide : ¬('{' : Char) = 't'),
              if_neg (by decide : ¬('{' : Char) = 'f'),
              if_neg (by decide : ¬('{' : Char) = '"'),
              if_neg (by decide : ¬('{' : Char) = '[')]
            simp only [if_true]
            obtain ⟨tail, htail⟩ := emitFields_cons k v fs
            have hsplit : emitFields ((k, v) :: fs) ++ '}' :: rest
                = '"' :: ((escape k ++ '"' :: ':' :: (emitVal v ++ tail)) ++ '}' :: rest) := by
              rw [htail]
              simp [List.append_assoc]
            rw [hsplit, skipWs_cons (by decide)]
            simp only []
            rw [if_neg (by decide : ¬('"' : Char) = '}'), ← hsplit]
            have hs : sizeF ((k, v) :: fs) ≤ f' := by
              have : sizeV (.obj ((k, v) :: fs)) = 1 + sizeF ((k, v) :: fs) := by simp [sizeV]
              omega
            rw [(ih f' (by omega)).2.2 ((k, v) :: fs) rest (by simp) hs]
            rfl
  · intro js rest hne hle
    obtain ⟨j, t, rfl⟩ := List.exists_cons_of_ne_nil hne
    simp only [sizeL] at hle
    have hf : 1 ≤ f := by omega
    obtain ⟨g, rfl⟩ : ∃ g, f = g + 1 := ⟨f - 1, by omega⟩
    cases t with
    | nil =>
        have he : emitItems [j] = emitVal j := by simp [emitItems]
        rw [he, parseItemsLoop]
        rw [(ih g (by omega)).1 j (']' :: rest) rfl (by omega)]
        simp only [Option.some_bind]
        rw [skipWs_cons (by decide)]
        simp only []
        rw [if_neg (by decide : ¬(']' : Char) = ',')]
        simp only [if_true]
    | cons j2 t2 =>
        have he : emitItems (j :: j2 :: t2) = emitVal j ++ ',' :: emitItems (j2 :: t2) := by
          simp [emitItems]
        rw [he, parseItemsLoop]
        simp only [List.append_assoc, List.cons_append]
        rw [(ih g (by omega)).1 j (',' :: (emitItems (j2 :: t2) ++ ']' :: rest)) rfl (by
          simp only [sizeL] at hle ⊢
          omega)]
        simp only [Option.some_bind]
        rw [skipWs_cons (by decide)]
        simp only [if_true]
        rw [(ih g (by omega)).2.1 (j2 :: t2) rest (by simp) (by
          simp only [sizeL] at hle ⊢
          omega)]
        rfl
  · intro fs rest hne hle
    obtain ⟨fld, t, rfl⟩ := List.exists_cons_of_ne_nil hne
    obtain ⟨k, v⟩ := fld
    simp only [sizeF] at hle
    have hf : 1 ≤ f := by omega
    obtain ⟨g, rfl⟩ : ∃ g, f = g + 1 := ⟨f - 1, by omega⟩
    cases t with
    | nil =>
        have he : emitFields [(k, v)] = '"' :: (escape k ++ '"' :: ':' :: emitVal v) := by
          simp [emitFields]
        rw [he, parseFieldsLoop]
        simp only [List.cons_append, List.append_assoc, List.nil_append]
        rw [skipWs_cons (by decide)]
        simp only [if_true]
        rw [parseStringBody_escape]
        simp only [Option.some_bind]
        rw [skipWs_cons (by decide)]
        simp only [if_true]
        rw [(ih g (by omega)).1 v ('}' :: rest) rfl (by omega)]
        simp only [Option.some_bind]
        rw [skipWs_cons (by decide)]
        simp only []
        rw [if_neg (by decide : ¬('}' : Char) = ',')]
        simp only [if_true]
    | cons fld2 t2 =>
        have he : emitFields ((k, v) :: fld2 :: t2)
            = '"' :: (escape k ++ '"' :: ':' :: emitVal v) ++ ',' :: emitFields (fld2 :: t2) := by
          simp [emitFields]
        rw [he, parseFieldsLoop]
        simp only [List.cons_append, List.append_assoc, List.nil_append]
        rw [skipWs_cons (by decide)]
        simp only [if_true]
        rw [parseStringBody_escape]
        simp only [Option.some_bind]
        rw [skipWs_cons (by decide)]
        simp only [if_true]
        rw [(ih g (by omega)).1 v (',' :: (emitFields (fld2 :: t2) ++ '}' :: rest)) rfl
          (by omega)]
        simp only [Option.some_bind]
        rw [skipWs_cons (by decide)]
        simp only [if_true]
        rw [(ih g (by omega)).2.2 (fld2 :: t2) rest (by simp) (by omega)]
        rfl

mutual
/-- The top-level fuel `length + 1` always suffices for a serialized value. -/
def sizeV_le : ∀ j : Json, sizeV j ≤ (emitVal j).length + 1
  | .null => by simp [sizeV, emitVal]
  | .bool b => by cases b <;> simp [sizeV, emitVal]
  | .num neg ip frac => by simp [sizeV]
  | .str s => by simp [sizeV]
  | .arr [] => by simp [sizeV]
  | .arr (j :: js) => by
      have h := sizeL_le (j :: js) (by simp)
      have hlen : (emitVal (.arr (j :: js))).length = (emitItems (j :: js)).length + 2 := by
        simp [emitVal]
      simp only [sizeV]
      omega
  | .obj [] => by simp [sizeV]
  | .obj (fld :: fs) => by
      have h := sizeF_le (fld :: fs) (by simp)
      have hlen : (emitVal (.obj (fld :: fs))).length = (emitFields (fld :: fs)).length + 2 := by
        simp [emitVal]
      simp only [sizeV]
      omega

/-- Fuel bound for array element lists. -/
def sizeL_le : ∀ js : List Json, js ≠ [] → sizeL js ≤ (emitItems js).length + 2
  | [j], _ => by
      have h := sizeV_le j
      have hlen : (emitItems [j]).length = (emitVal j).length := by simp [emitItems]
      simp only [sizeL]
      omega
  | j :: j2 :: t, _ => by
      have h1 := sizeV_le j
      have h2 := sizeL_le (j2 :: t) (by simp)
      have hlen : (emitItems (j :: j2 :: t)).length
          = (emitVal j).length + 1 + (emitItems (j2 :: t)).length := by
        simp [emitItems]
        omega
      rw [sizeL]
      omega

/-- Fuel bound for object member lists. -/
def sizeF_le : ∀ fs : List (List Char × Json), fs ≠ [] → sizeF fs ≤ (emitFields fs).length + 2
  | [(k, v)], _ => by
      have h := sizeV_le v
      have hlen : (emitFields [(k, v)]).length = (escape k).length + 3 + (emitVal v).length := by
        simp [emitFields]
        omega
      simp only [sizeF]
      omega
  | (k, v) :: fld2 :: t, _ => by
      have h1 := sizeV_le v
      have h2 := sizeF_le (fld2 :: t) (by simp)
      have hlen : (emitFields ((k, v) :: fld2 :: t)).length
          = (escape k).length + 3 + (emitVal v).length + 1 + (emitFields (fld2 :: t)).length := by
        simp [emitFields]
        omega
      rw [sizeF]
      omega
end

/-- Parsing inverts serialization: `JSON.parse` of `JSON.stringify` output
returns the original value. -/
theorem parseJson_emitVal (j : Json) : parseJson (emitVal j) = some j := by
  have h := (parse_emit ((emitVal j).length + 1)).1 j [] rfl (sizeV_le j)
  rw [List.append_nil] at h
  rw [parseJson, h]
  simp [skipWs]

/-! ## Bytes and cryptographic primitives

The source signs with HMAC-SHA-256 (node `crypto.createHmac` on the
TypeScript side, the svix SDK on the Go side).  SHA-256 is implemented
here executably over byte lists, with 32-bit words as `Nat` reduced
modulo 2^32. -/

/-- UTF-8 encoding of one Unicode scalar value. -/
def utf8Encode (c : Char) : List Nat :=
  let n := c.toNat
  if n < 128 then [n]
  else if n < 2048 then [192 ||| (n >>> 6), 128 ||| (n &&& 63)]
  else if n < 65536 then
    [224 ||| (n >>> 12), 128 ||| ((n >>> 6) &&& 63), 128 ||| (n &&& 63)]
  else
    [240 ||| (n >>> 18), 128 ||| ((n >>> 12) &&& 63),
      128 ||| ((n >>> 6) &&& 63), 128 ||| (n &&& 63)]

/-- UTF-8 bytes of a string. -/
def strBytes (s : List Char) : List Nat := (s.map utf8Encode).flatten

/-- Right rotation of a 32-bit word. -/
def rotr (n x : Nat) : Nat := ((x >>> n) ||| (x <<< (32 - n))) % 4294967296

/-- The eight initial SHA-256 hash values. -/
def sha256Init : List Nat :=
  [1779033703, 3144134277, 1013904242, 2773480762,
   1359893119, 2600822924, 528734635, 1541459225]

/-- The sixty-four SHA-256 round constants. -/
def sha256K : List Nat :=
  [1116352408, 1899447441, 3049323471, 3921009573, 961987163, 1508970993,
   2453635748, 2870763221, 3624381080, 310598401, 607225278, 1426881987,
   1925078388, 2162078206, 2614888103, 3248222580, 3835390401, 4022224774,
   264347078, 604807628, 770255983, 1249150122, 1555081692, 1996064986,
   2554220882, 2821834349, 2952996808, 3210313671, 3336571891, 3584528711,
   113926993, 338241895, 666307205, 773529912, 1294757372, 1396182291,
   1695183700, 1986661051, 2177026350, 2456956037, 2730485921, 2820302411,
   3259730800, 3345764771, 3516065817, 3600352804, 4094571909, 275423344,
   430227734, 506948616, 659060556, 883997877, 958139571, 1322822218,
   1537002063, 1747873779, 1955562222, 2024104815, 2227730452, 2361852424,
   2428436474, 2756734187, 3204031479, 3329325298]

/-- SHA-256 small sigma-0. -/
def ssig0 (x : Nat) : Nat := (rotr 7 x ^^^ rotr 18 x ^^^ (x >>> 3)) % 4294967296

/-- SHA-256 small sigma-1. -/
def ssig1 (x : Nat) : Nat := (rotr 17 x ^^^ rotr 19 x ^^^ (x >>> 10)) % 4294967296

/-- SHA-256 big sigma-0. -/
def bsig0 (x : Nat) : Nat := (rotr 2 x ^^^ rotr 13 x ^^^ rotr 22 x) % 4294967296

/-- SHA-256 big sigma-1. -/
def bsig1 (x : Nat) : Nat := (rotr 6 x ^^^ rotr 11 x ^^^ rotr 25 x) % 4294967296

/-- SHA-256 choose function. -/
def sha256Ch (x y z : Nat) : Nat := ((x &&& y) ^^^ ((x ^^^ 4294967295) &&& z)) % 4294967296

/-- SHA-256 majority function. -/
def sha256Maj (x y z : Nat) : Nat := ((x &&& y) ^^^ (x &&& z) ^^^ (y &&& z)) % 4294967296

/-- Split a list into chunks of `n` elements (fuel-based recursion). -/
def chunksAux (n : Nat) : Nat → List Nat → List (List Nat)
  | 0, _ => []
  | _, [] => []
  | fuel + 1, l => l.take n :: chunksAux n fuel (l.drop n)

/-- Chunks of `n` bytes. -/
def chunks (n : Nat) (l : List Nat) : List (List Nat) := chunksAux n l.length l

/-- Big-endian 32-bit word from four bytes. -/
def wordOfBytes (bs : List Nat) : Nat :=
  bs.foldl (fun a b => a * 256 + b) 0

/-- Big-endian bytes of a 32-bit word. -/
def bytesOfWord (w : Nat) : List Nat :=
  [w >>> 24 % 256, w >>> 16 % 256, w >>> 8 % 256, w % 256]

/-- Big-endian 8-byte encoding of the message bit length. -/
def lenBytes8 (n : Nat) : List Nat :=
  [n >>> 56 % 256, n >>> 48 % 256, n >>> 40 % 256, n >>> 32 % 256,
   n >>> 24 % 256, n >>> 16 % 256, n >>> 8 % 256, n % 256]

/-- SHA-256 padding: a 0x80 byte, zeros to 56 mod 64, then the bit length. -/
def sha256Pad (msg : List Nat) : List Nat :=
  let l := msg.length
  let zeros := (64 + 56 - (l + 1) % 64) % 64
  msg ++ 128 :: List.replicate zeros 0 ++ lenBytes8 (l * 8)

/-- Message schedule: expand sixteen words to sixty-four. -/
def sha256Sched (w16 : List Nat) : List Nat :=
  (List.range 48).foldl
    (fun acc _ =>
      let n := acc.length
      acc ++ [(ssig1 (acc.getD (n - 2) 0) + acc.getD (n - 7) 0
        + ssig0 (acc.getD (n - 15) 0) + acc.getD (n - 16) 0) % 4294967296])
    w16

/-- One SHA-256 compression round on the eight-word state. -/
def sha256Round (st : List Nat) (kw : Nat × Nat) : List Nat :=
  match st with
  | [a, b, c, d, e, f, g, h] =>
      let t1 := (h + bsig1 e + sha256Ch e f g + kw.1 + kw.2) % 4294967296
      let t2 := (bsig0 a + sha256Maj a b c) % 4294967296
      [(t1 + t2) % 4294967296, a, b, c, (d + t1) % 4294967296, e, f, g]
  | _ => st

/-- Process one 64-byte block. -/
def sha256Block (st : List Nat) (block : List Nat) : List Nat :=
  let ws := sha256Sched ((chunks 4 block).map wordOfBytes)
  let out := (sha256K.zip ws).foldl sha256Round st
  (st.zip out).map (fun p => (p.1 + p.2) % 4294967296)

/-- SHA-256 digest (32 bytes) of a byte-list message. -/
def sha256 (msg : List Nat) : List Nat :=
  ((chunks 64 (sha256Pad msg)).foldl sha256Block sha256Init).flatMap bytesOfWord

/-- HMAC-SHA-256 over byte lists. -/
def hmacSha256 (key msg : List Nat) : List Nat :=
  let k0 := if 64 < key.length then sha256 key else key
  let kp := k0 ++ List.replicate (64 - k0.length) 0
  let ipad := kp.map (fun b => b ^^^ 54)
  let opad := kp.map (fun b => b ^^^ 92)
  sha256 (opad ++ sha256 (ipad ++ msg))

/-- Lowercase hex rendering of a byte list, as node's `digest("hex")`. -/
def hexOfBytes (bs : List Nat) : List Char :=
  bs.flatMap (fun b => [hexDigitChar (b / 16 % 16), hexDigitChar (b % 16)])

/-- Standard base64 alphabet, by index. -/
def base64Char (n : Nat) : Char :=
  if n < 26 then Char.ofNat (65 + n)
  else if n < 52 then Char.ofNat (97 + (n - 26))
  else if n < 62 then Char.ofNat (48 + (n - 52))
  else if n = 62 then '+'
  else '/'

/-- Base64 encoding of a byte list, with padding. -/
def base64Encode (bs : List Nat) : List Char :=
  ((chunks 3 bs).map (fun c =>
    match c with
    | [a, b, x] =>
        [base64Char (a >>> 2), base64Char (((a &&& 3) <<< 4) ||| (b >>> 4)),
         base64Char (((b &&& 15) <<< 2) ||| (x >>> 6)), base64Char (x &&& 63)]
    | [a, b] =>
        [base64Char (a >>> 2), base64Char (((a &&& 3) <<< 4) ||| (b >>> 4)),
         base64Char ((b &&& 15) <<< 2), '=']
    | [a] =>
        [base64Char (a >>> 2), base64Char ((a &&& 3) <<< 4), '=', '=']
    | _ => [])).flatten

/-! ## Simple scheme: HMAC receiver (`bun-webhook/index.ts`)

The receiver computes `createHmac("sha256", SECRET).update(payload).digest("hex")`
and compares it to the supplied signature header with `timingSafeEqual`,
which throws on length mismatch (caught and mapped to `false`).  The
byte-level comparison of UTF-8 encodings is modelled as comparison of the
character lists, which is equivalent. -/

/-- Hex HMAC-SHA-256 of a payload string under a secret string, the
`expectedSignature` computation of `verifySignature`. -/
def hmacHex (secret payload : List Char) : List Char :=
  hexOfBytes (hmacSha256 (strBytes secret) (strBytes payload))

/-- Model of node `timingSafeEqual`: `none` models the exception thrown on
length mismatch; otherwise the boolean equality of the buffers.  The
constant-time execution property itself is a timing property outside this
embedding; the functional behaviour is equality. -/
def timingSafeEqualModel (a b : List Char) : Option Bool :=
  if a.length = b.length then some (a == b) else none

/-- The receiver's `verifySignature(payload, signature)`, parameterized by
the secret (the source fixes `SECRET = "your-shared-secret-key"`). -/
def verifySignatureWith (secret payload sig : List Char) : Bool :=
  let expectedSignature := hmacHex secret payload
  match timingSafeEqualModel sig expectedSignature with
  | some b => b
  | none => false

/-- The hardcoded shared secret of the simple-scheme servers. -/
def simpleSecret : List Char := "your-shared-secret-key".data

/-- Function `verifySignature` as in the source, with the hardcoded secret. -/
def verifySignature (payload sig : List Char) : Bool :=
  verifySignatureWith simpleSecret payload sig

/-- Modelled from the spec: the sending half of the simple scheme is not in
the repository (§6 specifies `X-Webhook-Signature: <hex HMAC-SHA256>` over
the body); it is the same hex HMAC the receiver recomputes. -/
def simpleSign (secret payload : List Char) : List Char := hmacHex secret payload

/-- Outcome of the `/webhook` route of the simple-scheme server. -/
inductive WebhookOutcome where
  | missingHeaders : WebhookOutcome
  | staleTimestamp : WebhookOutcome
  | badSignature : WebhookOutcome
  | malformedBody : WebhookOutcome
  | processed (payload : Json) : WebhookOutcome

/-- HTTP status the route answers with for each outcome. -/
def outcomeStatus : WebhookOutcome → Nat
  | .missingHeaders => 401
  | .staleTimestamp => 401
  | .badSignature => 401
  | .malformedBody => 400
  | .processed _ => 200

/-- Freshness window of the receiver: five minutes in milliseconds. -/
def freshnessWindowMs : Int := 300000

/-- The `/webhook` route of the simple-scheme server, parameterized by the
secret.  `now` and the timestamp header's denoted instant are epoch
milliseconds; header absence is `none`.  The order of checks follows the
source: headers, then timestamp freshness with `Math.abs(now - t)`, then
the HMAC signature over the raw body, then JSON parsing. -/
def webhookFetchWith (secret : List Char) (now : Int) (sig : Option (List Char))
    (tsHeader : Option Int) (rawBody : List Char) : WebhookOutcome :=
  match sig, tsHeader with
  | some sigv, some t =>
      if freshnessWindowMs < (now - t).natAbs then .staleTimestamp
      else if verifySignatureWith secret rawBody sigv then
        match parseJson rawBody with
        | some p => .processed p
        | none => .malformedBody
      else .badSignature
  | _, _ => .missingHeaders

/-- The route with the hardcoded secret, as deployed. -/
def webhookFetch (now : Int) (sig : Option (List Char)) (tsHeader : Option Int)
    (rawBody : List Char) : WebhookOutcome :=
  webhookFetchWith simpleSecret now sig tsHeader rawBody

/-! ## Enveloped scheme (svix SDK, spec section 4.1 / 6)

The Go sender and the `WebhookHandler` receiver both delegate signing and
verification to the svix SDK, which is an external dependency not in the
repository.  Both halves are modelled from the spec's contract: the
signature is `v1,<base64 HMAC-SHA-256>` over the exact byte sequence
`messageID + "." + timestamp + "." + body` with the timestamp as integer
seconds, and verification checks freshness of the timestamp header and
then compares signatures with a constant-time comparison. -/

/-- Decimal rendering of a signed integer. -/
def intChars (n : Int) : List Char :=
  if n < 0 then '-' :: emitNat n.natAbs else emitNat n.natAbs

/-- Modelled from the spec: the signed content `id + "." + timestamp + "." + body`. -/
def svixContent (msgID : List Char) (ts : Int) (body : List Char) : List Char :=
  msgID ++ '.' :: (intChars ts ++ '.' :: body)

/-- Modelled from the spec: the enveloped-scheme signature
`v1,<base64 HMAC>` under the decoded secret key bytes. -/
def svixSign (key : List Nat) (msgID : List Char) (ts : Int) (body : List Char) : List Char :=
  'v' :: '1' :: ',' :: base64Encode (hmacSha256 key (strBytes (svixContent msgID ts body)))

/-- Freshness tolerance of the enveloped-scheme verifier: five minutes in
seconds. -/
def svixToleranceSec : Int := 300

/-- Modelled from the spec: enveloped-scheme verification.  Rejects when a
header is absent, when the timestamp header is outside the freshness
window around `now`, or when the recomputed signature differs from the
supplied one under a constant-time comparison; otherwise parses the body. -/
def svixVerify (key : List Nat) (msgID : Option (List Char)) (tsHeader : Option Int)
    (sig : Option (List Char)) (body : List Char) (now : Int) : Except WebhookOutcome Json :=
  match msgID, tsHeader, sig with
  | some idv, some t, some sigv =>
      if svixToleranceSec < (now - t).natAbs then .error .staleTimestamp
      else if sigv == svixSign key idv t body then
        match parseJson body with
        | some p => .ok p
        | none => .error .malformedBody
      else .error .badSignature
  | _, _, _ => .error .missingHeaders

/-! ## Go delivery client with backoff (`part_002`)

`Client.SendPayload` marshals the payload, generates `msg_<uuid>`, fixes a
signing timestamp, signs once, and calls `sendWithRetry`, which runs
`backoff.Retry` with `WithMaxRetries(maxRetries - 1)` and `WithContext`.
The HTTP layer is abstracted as an oracle giving each attempt's outcome,
and the caller's context as a monotone predicate `ctxDone k` meaning the
context is done before attempt `k` starts (cancellation during attempt
`k - 1`'s network call or backoff sleep makes `ctxDone k` true). -/

namespace Client2

/-- Outcome of one HTTP attempt as seen by the operation closure. -/
inductive AttemptOutcome where
  | netErr : AttemptOutcome
  | httpStatus (code : Nat) (body : List Char) : AttemptOutcome

/-- Error classes of the client, mirroring the sentinel errors
`ErrNetwork`, `ErrClientError`, `ErrServerError` wrapped with the status
and response body.  The client defines no cancellation error class; on
cancellation `backoff.Retry`'s context error is discarded and the response
is built from `lastErr`. -/
inductive WErr where
  | network : WErr
  | clientErr (code : Nat) (body : List Char) : WErr
  | serverErr (code : Nat) (body : List Char) : WErr
deriving DecidableEq

/-- The `Response` struct: `MessageID` is only set on the success path. -/
structure Response where
  success : Bool
  statusCode : Nat
  messageID : List Char
  error : Option WErr
deriving DecidableEq

/-- One outbound request as built inside the operation closure. -/
structure HttpRequest where
  url : List Char
  contentType : List Char
  svixId : List Char
  svixTimestamp : Int
  svixSignature : List Char
  body : List Char
deriving DecidableEq

/-- Result of a send: the requests actually transmitted and the response. -/
structure RunResult where
  trace : List HttpRequest
  resp : Response
deriving DecidableEq

/-- The headers and body set on every attempt. -/
def mkRequest (url msgID : List Char) (ts : Int) (sig body : List Char) : HttpRequest :=
  ⟨url, "application/json".data, msgID, ts, sig, body⟩

/-- The retry loop body: runs the operation, classifies the status
(4xx permanent, 5xx retryable, otherwise success), and retries while
budget remains and the context is not done.  `budget` is the number of
retries still allowed after the current attempt; the failure response is
`Response{Error: lastErr, StatusCode: lastStatusCode}` where `lastErr` is
always the error of the attempt that just failed. -/
def retryLoop (oracle : Nat → AttemptOutcome) (ctxDone : Nat → Bool)
    (url msgID : List Char) (ts : Int) (sig body : List Char) :
    Nat → Nat → Nat → List HttpRequest → RunResult
  | k, budget, lastStatus, trace =>
    let req := mkRequest url msgID ts sig body
    let trace' := trace ++ [req]
    let out := if ctxDone k then AttemptOutcome.netErr else oracle k
    match out with
    | .netErr =>
        match budget, ctxDone (k + 1) with
        | 0, _ => ⟨trace', ⟨false, lastStatus, [], some .network⟩⟩
        | _ + 1, true => ⟨trace', ⟨false, lastStatus, [], some .network⟩⟩
        | b + 1, false =>
            retryLoop oracle ctxDone url msgID ts sig body (k + 1) b lastStatus trace'
    | .httpStatus c rbody =>
        if 400 ≤ c ∧ c < 500 then
          ⟨trace', ⟨false, c, [], some (.clientErr c rbody)⟩⟩
        else if 500 ≤ c then
          match budget, ctxDone (k + 1) with
          | 0, _ => ⟨trace', ⟨false, c, [], some (.serverErr c rbody)⟩⟩
          | _ + 1, true => ⟨trace', ⟨false, c, [], some (.serverErr c rbody)⟩⟩
          | b + 1, false =>
              retryLoop oracle ctxDone url msgID ts sig body (k + 1) b c trace'
        else ⟨trace', ⟨true, c, msgID, none⟩⟩

/-- Entry `sendWithRetry`: the retry budget is `MaxRetries - 1` further attempts
after the first (`retries--` before `WithMaxRetries`), starting with
`lastStatusCode = 0` and an empty trace. -/
def sendWithRetry (oracle : Nat → AttemptOutcome) (ctxDone : Nat → Bool)
    (url : List Char) (maxRetries : Nat) (msgID : List Char) (ts : Int)
    (sig body : List Char) : RunResult :=
  retryLoop oracle ctxDone url msgID ts sig body 0 (maxRetries - 1) 0 []

/-- Operation `SendPayload`: marshal once, generate `msg_<uuid>` once, fix the
signing timestamp, sign once, and enter the retry loop.  Marshalling of
the `Json` payload model cannot fail, so the marshal-error early return is
not reachable in the model. -/
def sendPayload (oracle : Nat → AttemptOutcome) (ctxDone : Nat → Bool)
    (url : List Char) (maxRetries : Nat) (key : List Nat) (uuid : List Char)
    (signNow : Int) (payload : Json) : RunResult :=
  let jsonData := emitVal payload
  let msgID := 'm' :: 's' :: 'g' :: '_' :: uuid
  let signature := svixSign key msgID signNow jsonData
  sendWithRetry oracle ctxDone url maxRetries msgID signNow signature jsonData

/-- A context that becomes done after attempt `m` stops the loop right
there: attempts `k .. m` run and the failure response carries the last
server error, exactly as plain exhaustion would. -/
theorem retryLoop_cancelAfter_const5xx (c : Nat) (rbody : List Char) (hc : 500 ≤ c)
    (url msgID : List Char) (ts : Int) (sig body : List Char) (m : Nat) :
    ∀ budget k lastStatus trace, k ≤ m → m ≤ k + budget →
      retryLoop (fun _ => .httpStatus c rbody) (fun j => decide (m < j)) url msgID ts sig body
          k budget lastStatus trace
        = ⟨trace ++ List.replicate (m - k + 1) (mkRequest url msgID ts sig body),
           ⟨false, c, [], some (.serverErr c rbody)⟩⟩ := by
  intro budget
  induction budget with
  | zero =>
      intro k lastStatus trace hk hm
      have hkm : k = m := by omega
      subst hkm
      rw [retryLoop.eq_def]
      simp only [decide_eq_false (by omega : ¬k < k), Bool.false_eq_true, if_false]
      rw [if_neg (by omega : ¬(400 ≤ c ∧ c < 500)), if_pos hc]
      simp [Nat.sub_self]
  | succ b ih =>
      intro k lastStatus trace hk hm
      rw [retryLoop.eq_def]
      simp only [decide_eq_false (by omega : ¬m < k), Bool.false_eq_true, if_false]
      rw [if_neg (by omega : ¬(400 ≤ c ∧ c < 500)), if_pos hc]
      by_cases hkm : k = m
      · subst hkm
        simp only [decide_eq_true (by omega : k < k + 1), if_true]
        simp [Nat.sub_self]
      · simp only [decide_eq_false (by omega : ¬m < k + 1), Bool.false_eq_true, if_false]
        rw [ih (k + 1) c (trace ++ [mkRequest url msgID ts sig body]) (by omega) (by omega)]
        have hrep : m - (k + 1) + 1 + 1 = m - k + 1 := by omega
        have hlist : (trace ++ [mkRequest url msgID ts sig body])
            ++ List.replicate (m - (k + 1) + 1) (mkRequest url msgID ts sig body)
            = trace ++ List.replicate (m - k + 1) (mkRequest url msgID ts sig body) := by
          rw [List.append_assoc, List.singleton_append, ← List.replicate_succ, hrep]
        rw [hlist]

end Client2

/-! ## Simple Go delivery client (`part_001`)

The simpler client has no context and no status classification beyond
`>= 400`: every failed attempt (network error or any 4xx/5xx status) sets
`lastErr`, sleeps `(1 << attempt)` seconds, and retries until the loop
bound `MaxRetries` is reached; the failure response carries only the last
error.  The success response carries the message ID and signature. -/

namespace Client1

/-- Error values of the simple client: a transport error or the formatted
`"server returned <code>"` error, which wraps any status `>= 400`. -/
inductive Err1 where
  | netErr : Err1
  | serverReturned (code : Nat) (body : List Char) : Err1
deriving DecidableEq

/-- The simple client's `Response` struct. -/
structure Response1 where
  success : Bool
  messageID : List Char
  signature : List Char
  error : Option Err1
deriving DecidableEq

/-- A run of the simple client: transmitted requests, backoff sleeps (in
seconds, in order), and the response. -/
structure RunResult1 where
  trace : List Client2.HttpRequest
  delays : List Nat
  resp : Response1
deriving DecidableEq

/-- The `for attempt := 0; attempt < MaxRetries` loop: any status `>= 400`
and any network error set `lastErr`, sleep `2 ^ attempt` seconds, and
continue; a status `< 400` returns success immediately. -/
def run (oracle : Nat → Client2.AttemptOutcome) (url msgID : List Char) (ts : Int)
    (sig body : List Char) :
    Nat → Nat → Option Err1 → List Client2.HttpRequest → List Nat → RunResult1
  | _, 0, lastErr, trace, delays => ⟨trace, delays, ⟨false, [], [], lastErr⟩⟩
  | k, r + 1, _, trace, delays =>
      let req := Client2.mkRequest url msgID ts sig body
      let trace' := trace ++ [req]
      match oracle k with
      | .netErr =>
          run oracle url msgID ts sig body (k + 1) r (some .netErr) trace'
            (delays ++ [2 ^ k])
      | .httpStatus c rbody =>
          if 400 ≤ c then
            run oracle url msgID ts sig body (k + 1) r (some (.serverReturned c rbody))
              trace' (delays ++ [2 ^ k])
          else ⟨trace', delays, ⟨true, msgID, sig, none⟩⟩

/-- Entry point of the simple client's retry loop. -/
def sendWithRetry (oracle : Nat → Client2.AttemptOutcome) (url : List Char)
    (maxRetries : Nat) (msgID : List Char) (ts : Int) (sig body : List Char) : RunResult1 :=
  run oracle url msgID ts sig body 0 maxRetries none [] []

end Client1

/-! ## Backoff schedule of `part_002`

Modelled from the cenkalti/backoff/v4 library the client configures:
`InitialInterval` is overridden to 1 second and `MaxInterval` to the
configured maximum, while `Multiplier` and `RandomizationFactor` keep
their library defaults 1.5 and 0.5.  Durations are nanoseconds; the
library's float64 arithmetic on whole-nanosecond values is modelled with
exact rational steps (`* 3 / 2`).  `NextBackOff` returns a uniformly
jittered value around the current interval and then multiplies the
current interval by 1.5, capping at `MaxInterval`. -/

/-- One incrementCurrentInterval step: cap at `maxI` once
`cur >= maxI / 1.5`, otherwise multiply by 1.5. -/
def nextInterval (maxI cur : Nat) : Nat :=
  if 2 * maxI ≤ 3 * cur then maxI else cur * 3 / 2

/-- The deterministic current-interval sequence: the base backoff interval
before the k-th sleep, starting from the configured 1 second. -/
def baseInterval (maxI : Nat) : Nat → Nat
  | 0 => 1000000000
  | k + 1 => nextInterval maxI (baseInterval maxI k)

/-- The jittered sleep drawn around a current interval `cur` with
randomization factor 0.5: a value in `[cur - cur/2, cur - cur/2 + rand]`
for a random `rand` bounded by `cur`. -/
def jitteredInterval (cur rand : Nat) : Nat := (cur - cur / 2) + rand

/-- Backoff delay of the simple client before retrying after attempt `k`
(zero-based): `(1 << attempt)` seconds. -/
def client1Backoff (k : Nat) : Nat := 2 ^ k

/-! ## Event dispatcher (`bun-webhook/lib/webhook.ts`)

`executeHandlers` resolves `handlers.get(event) ?? []` concatenated with
the wildcard handlers and, in sequential mode, awaits each in order inside
`try`/`catch`, passing any thrown error to `onHandlerError` and
continuing.  A handler is modelled by its observable behaviour: an
identifier and, if it throws, its error message. -/

namespace Dispatcher

/-- Observable behaviour of one registered handler. -/
structure HandlerSpec where
  hid : Nat
  fails : Option (List Char)
deriving DecidableEq

/-- The registry: per-event ordered handler lists plus the wildcard list. -/
structure Registry where
  handlers : List (List Char × List HandlerSpec)
  wildcard : List HandlerSpec

/-- Lookup `this.handlers.get(event) ?? []`. -/
def lookup : List (List Char × List HandlerSpec) → List Char → List HandlerSpec
  | [], _ => []
  | (ev, hs) :: rest, e => if ev = e then hs else lookup rest e

/-- Result of `executeHandlers`: which handlers ran (in order) and the
errors reported to the `onHandlerError` callback (in order).  The function
itself always returns; no handler error escapes it. -/
structure ExecResult where
  invoked : List Nat
  reported : List (Nat × List Char)
deriving DecidableEq

/-- Sequential execution with per-handler `try`/`catch`. -/
def runSeq : List HandlerSpec → ExecResult
  | [] => ⟨[], []⟩
  | h :: t =>
      let r := runSeq t
      match h.fails with
      | some e => ⟨h.hid :: r.invoked, (h.hid, e) :: r.reported⟩
      | none => ⟨h.hid :: r.invoked, r.reported⟩

/-- Operation `executeHandlers` in sequential mode. -/
def executeHandlersSeq (reg : Registry) (event : List Char) : ExecResult :=
  runSeq (lookup reg.handlers event ++ reg.wildcard)

end Dispatcher

/-! ## Signature verification lemmas -/

/-- Verification accepts exactly the recomputed hex digest. -/
theorem verifySignatureWith_iff (secret payload sig : List Char) :
    verifySignatureWith secret payload sig = true ↔ sig = hmacHex secret payload := by
  unfold verifySignatureWith timingSafeEqualModel
  by_cases h : sig.length = (hmacHex secret payload).length
  · simp only [if_pos h]
    constructor
    · intro hb
      exact eq_of_beq hb
    · intro he
      subst he
      exact beq_self_eq_true _
  · simp only [if_neg h]
    constructor
    · intro hb
      cases hb
    · intro he
      exact absurd (by rw [he]) h

/-- A payload verifies against its own signature. -/
theorem verify_simpleSign (secret payload : List Char) :
    verifySignatureWith secret payload (simpleSign secret payload) = true :=
  (verifySignatureWith_iff secret payload (simpleSign secret payload)).mpr rfl

/-- Round trip of the simple-scheme endpoint: a fresh, correctly signed
serialized payload is accepted and the parsed payload equals the original. -/
theorem webhookFetchWith_roundtrip (secret : List Char) (p : Json) (now t : Int)
    (h : ((now - t).natAbs : Int) ≤ freshnessWindowMs) :
    webhookFetchWith secret now (some (simpleSign secret (emitVal p))) (some t) (emitVal p)
      = .processed p := by
  have h' : ¬freshnessWindowMs < ((now - t).natAbs : Int) := by
    simp only [freshnessWindowMs] at h ⊢
    omega
  simp only [webhookFetchWith]
  rw [if_neg h', if_pos (verify_simpleSign secret (emitVal p)), parseJson_emitVal]

/-- Round trip of the enveloped-scheme verifier. -/
theorem svixVerify_roundtrip (key : List Nat) (msgID : List Char) (p : Json) (now t : Int)
    (h : ((now - t).natAbs : Int) ≤ svixToleranceSec) :
    svixVerify key (some msgID) (some t) (some (svixSign key msgID t (emitVal p)))
      (emitVal p) now = .ok p := by
  have h' : ¬svixToleranceSec < ((now - t).natAbs : Int) := by
    simp only [svixToleranceSec] at h ⊢
    omega
  simp only [svixVerify]
  rw [if_neg h', if_pos (beq_self_eq_true _), parseJson_emitVal]

/-! ## Retry loop lemmas for the backoff client -/

namespace Client2

/-- Against a target that always answers a 5xx status with no cancellation,
the loop performs exactly `budget + 1` attempts and fails with the last
server error and status. -/
theorem retryLoop_const5xx (c : Nat) (rbody : List Char) (hc : 500 ≤ c)
    (url msgID : List Char) (ts : Int) (sig body : List Char) :
    ∀ budget k lastStatus trace,
      retryLoop (fun _ => .httpStatus c rbody) (fun _ => false) url msgID ts sig body
          k budget lastStatus trace
        = ⟨trace ++ List.replicate (budget + 1) (mkRequest url msgID ts sig body),
           ⟨false, c, [], some (.serverErr c rbody)⟩⟩ := by
  intro budget
  induction budget with
  | zero =>
      intro k lastStatus trace
      simp only [retryLoop]
      rw [if_neg (by omega : ¬(400 ≤ c ∧ c < 500)), if_pos hc]
      simp
  | succ b ih =>
      intro k lastStatus trace
      simp only [retryLoop]
      rw [if_neg (by omega : ¬(400 ≤ c ∧ c < 500)), if_pos hc]
      rw [ih (k + 1) c (trace ++ [mkRequest url msgID ts sig body])]
      simp [List.replicate_succ]

/-- A first-attempt 4xx answer ends the loop at once with the permanent
client error, regardless of the remaining budget. -/
theorem retryLoop_first_4xx (oracle : Nat → AttemptOutcome) (ctxDone : Nat → Bool)
    (c : Nat) (rbody : List Char) (h0 : oracle 0 = .httpStatus c rbody)
    (hc : 400 ≤ c ∧ c < 500) (hctx : ctxDone 0 = false)
    (url msgID : List Char) (ts : Int) (sig body : List Char) (budget lastStatus : Nat) :
    retryLoop oracle ctxDone url msgID ts sig body 0 budget lastStatus []
      = ⟨[mkRequest url msgID ts sig body], ⟨false, c, [], some (.clientErr c rbody)⟩⟩ := by
  rw [retryLoop.eq_def]
  simp only [hctx, h0, Bool.false_eq_true, if_false]
  rw [if_pos hc]
  simp

/-- Shape of every run: at least one attempt is made, every transmitted
request is the identical envelope built before the loop, and the response
either succeeds carrying the message ID with no error, or fails carrying
the empty message ID and some error. -/
theorem retryLoop_shape (oracle : Nat → AttemptOutcome) (ctxDone : Nat → Bool)
    (url msgID : List Char) (ts : Int) (sig body : List Char) :
    ∀ budget k lastStatus trace,
      ∃ n, 1 ≤ n ∧
        (retryLoop oracle ctxDone url msgID ts sig body k budget lastStatus trace).trace
          = trace ++ List.replicate n (mkRequest url msgID ts sig body) ∧
        (let resp := (retryLoop oracle ctxDone url msgID ts sig body k budget lastStatus trace).resp
         (resp.success = true ∧ resp.messageID = msgID ∧ resp.error = none) ∨
         (resp.success = false ∧ resp.messageID = [] ∧ ∃ e, resp.error = some e)) := by
  intro budget
  induction budget with
  | zero =>
      intro k lastStatus trace
      refine ⟨1, le_refl 1, ?_⟩
      simp only [retryLoop]
      cases hcd : ctxDone k with
      | true =>
          simp only [hcd, if_true]
          simp
      | false =>
          simp only [hcd, Bool.false_eq_true, if_false]
          cases hout : oracle k with
          | netErr => simp
          | httpStatus c rbody =>
              simp only []
              by_cases h4 : 400 ≤ c ∧ c < 500
              · rw [if_pos h4]
                simp
              · rw [if_neg h4]
                by_cases h5 : 500 ≤ c
                · rw [if_pos h5]
                  simp
                · rw [if_neg h5]
                  simp
  | succ b ih =>
      intro k lastStatus trace
      rw [retryLoop.eq_def]
      cases hcd : ctxDone k with
      | true =>
          cases hcd2 : ctxDone (k + 1) with
          | true =>
              refine ⟨1, le_refl 1, ?_⟩
              simp [hcd, hcd2]
          | false =>
              obtain ⟨n, hn, htr, hres⟩ := ih (k + 1) lastStatus
                (trace ++ [mkRequest url msgID ts sig body])
              refine ⟨n + 1, by omega, ?_, ?_⟩
              · simp only [hcd, hcd2, if_true, Bool.false_eq_true, if_false]
                rw [htr]
                simp [List.replicate_succ]
              · simp only [hcd, hcd2, if_true, Bool.false_eq_true, if_false]
                exact hres
      | false =>
          cases hout : oracle k with
          | netErr =>
              cases hcd2 : ctxDone (k + 1) with
              | true =>
                  refine ⟨1, le_refl 1, ?_⟩
                  simp [hcd, hcd2, hout]
              | false =>
                  obtain ⟨n, hn, htr, hres⟩ := ih (k + 1) lastStatus
                    (trace ++ [mkRequest url msgID ts sig body])
                  refine ⟨n + 1, by omega, ?_, ?_⟩
                  · simp only [hcd, hcd2, hout, Bool.false_eq_true, if_false]
                    rw [htr]
                    simp [List.replicate_succ]
                  · simp only [hcd, hcd2, hout, Bool.false_eq_true, if_false]
                    exact hres
          | httpStatus c rbody =>
              simp only [hcd, hout, Bool.false_eq_true, if_false]
              by_cases h4 : 400 ≤ c ∧ c < 500
              · rw [if_pos h4]
                refine ⟨1, le_refl 1, ?_⟩
                simp
              · rw [if_neg h4]
                by_cases h5 : 500 ≤ c
                · rw [if_pos h5]
                  cases hcd2 : ctxDone (k + 1) with
                  | true =>
                      refine ⟨1, le_refl 1, ?_⟩
                      simp [hcd2]
                  | false =>
                      obtain ⟨n, hn, htr, hres⟩ := ih (k + 1) c
                        (trace ++ [mkRequest url msgID ts sig body])
                      refine ⟨n + 1, by omega, ?_, ?_⟩
                      · simp only [hcd2, Bool.false_eq_true, if_false]
                        rw [htr]
                        simp [List.replicate_succ]
                      · simp only [hcd2, Bool.false_eq_true, if_false]
                        exact hres
                · rw [if_neg h5]
                  refine ⟨1, le_refl 1, ?_⟩
                  simp

end Client2

/-! ## Loop lemmas for the simple client -/

namespace Client1

/-- Against a target that always answers with status `>= 400`, the simple
client makes exactly `r` attempts, sleeps `2 ^ attempt` seconds after each
of them, and fails with the last formatted server error. -/
theorem run_const_ge400 (c : Nat) (rbody : List Char) (hc : 400 ≤ c)
    (url msgID : List Char) (ts : Int) (sig body : List Char) :
    ∀ r, 1 ≤ r → ∀ k lastErr trace delays,
      run (fun _ => .httpStatus c rbody) url msgID ts sig body k r lastErr trace delays
        = ⟨trace ++ List.replicate r (Client2.mkRequest url msgID ts sig body),
           delays ++ (List.range' k r).map (fun a => 2 ^ a),
           ⟨false, [], [], some (.serverReturned c rbody)⟩⟩ := by
  intro r
  induction r with
  | zero => intro h; exact absurd h (by omega)
  | succ r ih =>
      intro _ k lastErr trace delays
      simp only [run]
      rw [if_pos hc]
      cases r with
      | zero =>
          simp only [run]
          have hr : List.range' k 1 = [k] := rfl
          rw [hr]
          simp
      | succ r2 =>
          rw [ih (by omega) (k + 1) (some (.serverReturned c rbody))
            (trace ++ [Client2.mkRequest url msgID ts sig body]) (delays ++ [2 ^ k])]
          have hr : List.range' k (r2 + 1 + 1) = k :: List.range' (k + 1) (r2 + 1) := rfl
          rw [hr]
          simp [List.replicate_succ]

/-- Every request the simple client transmits is the identical envelope
built before the loop. -/
theorem run_trace (oracle : Nat → Client2.AttemptOutcome) (url msgID : List Char)
    (ts : Int) (sig body : List Char) :
    ∀ r k lastErr trace delays,
      (∀ x ∈ trace, x = Client2.mkRequest url msgID ts sig body) →
      ∀ x ∈ (run oracle url msgID ts sig body k r lastErr trace delays).trace,
        x = Client2.mkRequest url msgID ts sig body := by
  intro r
  induction r with
  | zero =>
      intro k lastErr trace delays htr
      simpa [run] using htr
  | succ r ih =>
      intro k lastErr trace delays htr
      have htr' : ∀ x ∈ trace ++ [Client2.mkRequest url msgID ts sig body],
          x = Client2.mkRequest url msgID ts sig body := by
        intro x hx
        rcases List.mem_append.mp hx with hx | hx
        · exact htr x hx
        · simpa using hx
      rw [run.eq_def]
      cases hout : oracle k with
      | netErr =>
          simp only [hout]
          exact ih (k + 1) (some .netErr) _ _ htr'
      | httpStatus c rbody =>
          simp only [hout]
          by_cases h4 : 400 ≤ c
          · rw [if_pos h4]
            exact ih (k + 1) (some (.serverReturned c rbody)) _ _ htr'
          · rw [if_neg h4]
            exact htr'

end Client1

/-! ## Sample payload: the spec's concrete scenario -/

/-- The concrete scenario payload: event `order.created` with
`{"order_id":"12345","amount":99.99}`. -/
def samplePayload : Json :=
  .obj [("event".data, .str "order.created".data),
        ("timestamp".data, .str "2024-01-15T10:30:00Z".data),
        ("data".data, .obj [("order_id".data, .str "12345".data),
                            ("amount".data, .num false 99 [⟨9, by omega⟩, ⟨9, by omega⟩])])]

/-! ## Claims C3, C4, C5: verification engine -/

/-- C3: for every payload P and secret S, verifying the headers and body
produced by signing P with S (same scheme on both sides) succeeds and
yields a payload equal to P, provided the signing timestamp is within the
receiver's freshness window: verify after sign is the identity on
payloads, for the simple HMAC scheme end to end through the `/webhook`
route, and for the enveloped svix scheme's verifier. -/
theorem claim_C3_verify_after_sign (secret : List Char) (key : List Nat)
    (msgID : List Char) (p : Json) (now t nowS tS : Int)
    (hfresh : ((now - t).natAbs : Int) ≤ freshnessWindowMs)
    (hfreshS : ((nowS - tS).natAbs : Int) ≤ svixToleranceSec) :
    webhookFetchWith secret now (some (simpleSign secret (emitVal p))) (some t) (emitVal p)
      = .processed p ∧
    svixVerify key (some msgID) (some tS) (some (svixSign key msgID tS (emitVal p)))
      (emitVal p) nowS = .ok p :=
  ⟨webhookFetchWith_roundtrip secret p now t hfresh,
   svixVerify_roundtrip key msgID p nowS tS hfreshS⟩

/-- C3 witness: the concrete scenario with secret `s3cr3t` at matching
timestamps. -/
theorem claim_C3_witness :
    (((1000 : Int) - 1000).natAbs : Int) ≤ freshnessWindowMs ∧
    (((5 : Int) - 5).natAbs : Int) ≤ svixToleranceSec ∧
    webhookFetchWith "s3cr3t".data 1000
        (some (simpleSign "s3cr3t".data (emitVal samplePayload))) (some 1000)
        (emitVal samplePayload) = .processed samplePayload ∧
    svixVerify [11, 22, 33] (some "msg_wit".data) (some 5)
        (some (svixSign [11, 22, 33] "msg_wit".data 5 (emitVal samplePayload)))
        (emitVal samplePayload) 5 = .ok samplePayload := by
  have h := claim_C3_verify_after_sign "s3cr3t".data [11, 22, 33] "msg_wit".data
    samplePayload 1000 1000 5 5 (by decide) (by decide)
  exact ⟨by decide, by decide, h.1, h.2⟩

/-- C4 counterexample: under the simple scheme actually deployed, the
signature covers only the raw body, so changing the timestamp header does
not invalidate it: the same signed body verifies and is processed at two
different timestamps (both inside the freshness window). -/
theorem claim_C4_counterexample :
    webhookFetch 0 (some (simpleSign simpleSecret (emitVal samplePayload))) (some 0)
      (emitVal samplePayload) = .processed samplePayload ∧
    webhookFetch 0 (some (simpleSign simpleSecret (emitVal samplePayload))) (some 60000)
      (emitVal samplePayload) = .processed samplePayload ∧
    (0 : Int) ≠ 60000 :=
  ⟨webhookFetchWith_roundtrip simpleSecret samplePayload 0 0 (by decide),
   webhookFetchWith_roundtrip simpleSecret samplePayload 0 60000 (by decide),
   by decide⟩

/-- C4 (amended): under the simple scheme a signature is valid for exactly
the raw body, not the triple: the route's outcome is unchanged by any
modification of the (fresh) timestamp header, no message ID enters the
check at all, and a body passes verification against a signature exactly
when its HMAC digest coincides with the signed body's digest — so any body
change that alters the digest invalidates the signature. -/
theorem claim_C4_signature_covers_body_only (secret bodyA bodyB sigv : List Char)
    (now t t' : Int)
    (h1 : ¬freshnessWindowMs < ((now - t).natAbs : Int))
    (h2 : ¬freshnessWindowMs < ((now - t').natAbs : Int)) :
    webhookFetchWith secret now (some sigv) (some t) bodyA
      = webhookFetchWith secret now (some sigv) (some t') bodyA ∧
    (verifySignatureWith secret bodyB (simpleSign secret bodyA) = true
      ↔ hmacHex secret bodyB = hmacHex secret bodyA) := by
  constructor
  · simp only [webhookFetchWith]
    rw [if_neg h1, if_neg h2]
  · constructor
    · intro hv
      exact ((verifySignatureWith_iff secret bodyB (simpleSign secret bodyA)).mp hv).symm
    · intro he
      exact (verifySignatureWith_iff secret bodyB (simpleSign secret bodyA)).mpr he.symm

/-- C4 witness: concrete instantiation of the amended claim. -/
theorem claim_C4_witness :
    ¬freshnessWindowMs < (((0 : Int) - 0).natAbs : Int) ∧
    ¬freshnessWindowMs < (((0 : Int) - 1).natAbs : Int) ∧
    webhookFetchWith "s".data 0 (some "sig".data) (some 0) "b".data
      = webhookFetchWith "s".data 0 (some "sig".data) (some 1) "b".data ∧
    (verifySignatureWith "s".data "b2".data (simpleSign "s".data "b".data) = true
      ↔ hmacHex "s".data "b2".data = hmacHex "s".data "b".data) := by
  have h := claim_C4_signature_covers_body_only "s".data "b".data "b2".data "sig".data
    0 0 1 (by decide) (by decide)
  exact ⟨by decide, by decide, h.1, h.2⟩

/-- C5: a timestamp header denoting a time more than five minutes from the
current time, in either direction, is rejected with 401 as stale, for
every signature header and every body: the check uses only the header's
claimed timestamp and decides the outcome before the signature or body is
consulted. -/
theorem claim_C5_stale_timestamp_rejected (secret sigv bodyA : List Char) (now t : Int)
    (h : freshnessWindowMs < ((now - t).natAbs : Int)) :
    webhookFetchWith secret now (some sigv) (some t) bodyA = .staleTimestamp ∧
    outcomeStatus (webhookFetchWith secret now (some sigv) (some t) bodyA) = 401 := by
  have hmain : webhookFetchWith secret now (some sigv) (some t) bodyA = .staleTimestamp := by
    simp only [webhookFetchWith]
    rw [if_pos h]
  exact ⟨hmain, by rw [hmain]; rfl⟩

/-- C5 witness: a correctly signed envelope whose timestamp is six minutes
old is rejected as stale with 401. -/
theorem claim_C5_witness :
    freshnessWindowMs < (((360000 : Int) - 0).natAbs : Int) ∧
    webhookFetchWith simpleSecret 360000
        (some (simpleSign simpleSecret (emitVal samplePayload))) (some 0)
        (emitVal samplePayload) = .staleTimestamp ∧
    outcomeStatus (webhookFetchWith simpleSecret 360000
        (some (simpleSign simpleSecret (emitVal samplePayload))) (some 0)
        (emitVal samplePayload)) = 401 := by
  have h := claim_C5_stale_timestamp_rejected simpleSecret
    (simpleSign simpleSecret (emitVal samplePayload)) (emitVal samplePayload)
    360000 0 (by decide)
  exact ⟨by decide, h.1, h.2⟩

/-! ## Claims C1, C2: retry classification and bound -/

/-- C1 counterexample: the simple client treats a 4xx answer like any
other failure and retries: against a target answering 400 on every
attempt with `MaxRetries = 3`, it performs 3 attempts, not 1. -/
theorem claim_C1_counterexample :
    (Client1.sendWithRetry (fun _ => .httpStatus 400 []) [] 3 [] 0 [] []).trace.length = 3 ∧
    (Client1.sendWithRetry (fun _ => .httpStatus 400 []) [] 3 [] 0 [] []).resp.success = false ∧
    (3 : Nat) ≠ 1 := by
  have h := Client1.run_const_ge400 400 [] (by omega) [] [] 0 [] [] 3 (by omega) 0 none [] []
  unfold Client1.sendWithRetry
  rw [h]
  refine ⟨by simp, rfl, by decide⟩

/-- C1 (amended): for the context-aware client, a first response in
[400,500) terminates the loop after exactly one attempt with the
permanent client-error classification and the status code, regardless of
the remaining retry budget; the simple client variant instead classifies
every status at or above 400 as retryable and keeps retrying. -/
theorem claim_C1_no_retry_on_4xx (oracle : Nat → Client2.AttemptOutcome)
    (ctxDone : Nat → Bool) (url msgID sig body : List Char) (ts : Int)
    (maxRetries c : Nat) (rbody : List Char)
    (h0 : oracle 0 = .httpStatus c rbody) (hc : 400 ≤ c ∧ c < 500)
    (hctx : ctxDone 0 = false) :
    (Client2.sendWithRetry oracle ctxDone url maxRetries msgID ts sig body).trace.length = 1 ∧
    (Client2.sendWithRetry oracle ctxDone url maxRetries msgID ts sig body).resp
      = ⟨false, c, [], some (.clientErr c rbody)⟩ := by
  unfold Client2.sendWithRetry
  rw [Client2.retryLoop_first_4xx oracle ctxDone c rbody h0 hc hctx]
  exact ⟨rfl, rfl⟩

/-- C1 witness: a target answering 400 on the first attempt. -/
theorem claim_C1_witness :
    ((fun _ : Nat => Client2.AttemptOutcome.httpStatus 400 []) 0
      = Client2.AttemptOutcome.httpStatus 400 []) ∧
    ((400 : Nat) ≤ 400 ∧ (400 : Nat) < 500) ∧
    ((fun _ : Nat => false) 0 = false) ∧
    (Client2.sendWithRetry (fun _ => .httpStatus 400 []) (fun _ => false)
        [] 3 [] 0 [] []).trace.length = 1 ∧
    (Client2.sendWithRetry (fun _ => .httpStatus 400 []) (fun _ => false)
        [] 3 [] 0 [] []).resp = ⟨false, 400, [], some (.clientErr 400 [])⟩ := by
  have h := claim_C1_no_retry_on_4xx (fun _ => .httpStatus 400 []) (fun _ => false)
    [] [] [] [] 0 3 400 [] rfl (by decide) rfl
  exact ⟨rfl, by decide, rfl, h.1, h.2⟩

/-- C2: against a target that always answers 500, a send with
`maxRetries = n >= 1` performs exactly n attempts and returns a failure
referencing the last 500: the context-aware client reports the server
error and status code 500; the simple client reports the formatted
`server returned 500` error. -/
theorem claim_C2_retry_bound (url msgID sig body : List Char) (ts : Int)
    (n : Nat) (hn : 1 ≤ n) (rbody : List Char) :
    (Client2.sendWithRetry (fun _ => .httpStatus 500 rbody) (fun _ => false)
        url n msgID ts sig body).trace.length = n ∧
    (Client2.sendWithRetry (fun _ => .httpStatus 500 rbody) (fun _ => false)
        url n msgID ts sig body).resp
      = ⟨false, 500, [], some (.serverErr 500 rbody)⟩ ∧
    (Client1.sendWithRetry (fun _ => .httpStatus 500 rbody) url n msgID ts sig body).trace.length
      = n ∧
    (Client1.sendWithRetry (fun _ => .httpStatus 500 rbody) url n msgID ts sig body).resp.success
      = false ∧
    (Client1.sendWithRetry (fun _ => .httpStatus 500 rbody) url n msgID ts sig body).resp.error
      = some (.serverReturned 500 rbody) := by
  have h2 := Client2.retryLoop_const5xx 500 rbody (le_refl 500) url msgID ts sig body
    (n - 1) 0 0 []
  have h1 := Client1.run_const_ge400 500 rbody (by omega) url msgID ts sig body n hn
    0 none [] []
  unfold Client2.sendWithRetry Client1.sendWithRetry
  rw [h2, h1]
  refine ⟨by simp; omega, rfl, by simp, rfl, rfl⟩

/-- C2 witness: `maxRetries = 3` gives exactly 3 attempts. -/
theorem claim_C2_witness :
    (1 : Nat) ≤ 3 ∧
    (Client2.sendWithRetry (fun _ => .httpStatus 500 []) (fun _ => false)
        [] 3 [] 0 [] []).trace.length = 3 ∧
    (Client2.sendWithRetry (fun _ => .httpStatus 500 []) (fun _ => false)
        [] 3 [] 0 [] []).resp = ⟨false, 500, [], some (.serverErr 500 [])⟩ ∧
    (Client1.sendWithRetry (fun _ => .httpStatus 500 []) [] 3 [] 0 [] []).trace.length = 3 := by
  have h := claim_C2_retry_bound [] [] [] [] 0 3 (by decide) []
  exact ⟨by decide, h.1, h.2.1, h.2.2.1⟩

/-! ## Claims C6, C10: the envelope across retries and the message ID -/

/-- C6: for every logical send, the signed envelope is created exactly
once before the retry loop and every attempt transmits the identical
message ID, signing timestamp, signature, and body bytes: at least one
request is sent and every request of the context-aware client's trace
equals the envelope computed from the single `msg_<uuid>`, timestamp and
signature; likewise every request of the simple client's trace. -/
theorem claim_C6_envelope_signed_once (oracle : Nat → Client2.AttemptOutcome)
    (ctxDone : Nat → Bool) (url : List Char) (maxRetries : Nat) (key : List Nat)
    (uuid : List Char) (signNow : Int) (payload : Json)
    (oracle1 : Nat → Client2.AttemptOutcome) (url1 msgID1 : List Char) (ts1 : Int)
    (sig1 body1 : List Char) (n1 : Nat) :
    ((Client2.sendPayload oracle ctxDone url maxRetries key uuid signNow payload).trace ≠ [] ∧
     ∀ x ∈ (Client2.sendPayload oracle ctxDone url maxRetries key uuid signNow payload).trace,
       x = Client2.mkRequest url ('m' :: 's' :: 'g' :: '_' :: uuid) signNow
             (svixSign key ('m' :: 's' :: 'g' :: '_' :: uuid) signNow (emitVal payload))
             (emitVal payload)) ∧
    (∀ x ∈ (Client1.sendWithRetry oracle1 url1 n1 msgID1 ts1 sig1 body1).trace,
       x = Client2.mkRequest url1 msgID1 ts1 sig1 body1) := by
  constructor
  · obtain ⟨n, hn, htr, _⟩ := Client2.retryLoop_shape oracle ctxDone url
      ('m' :: 's' :: 'g' :: '_' :: uuid) signNow
      (svixSign key ('m' :: 's' :: 'g' :: '_' :: uuid) signNow (emitVal payload))
      (emitVal payload) (maxRetries - 1) 0 0 []
    unfold Client2.sendPayload Client2.sendWithRetry
    constructor
    · rw [htr]
      cases n with
      | zero => omega
      | succ n2 => simp [List.replicate_succ]
    · intro x hx
      rw [htr] at hx
      simp only [List.nil_append] at hx
      exact List.eq_of_mem_replicate hx
  · intro x hx
    exact Client1.run_trace oracle1 url1 msgID1 ts1 sig1 body1 n1 0 none [] []
      (by simp) x hx

/-- C10: the `Response` of a `SendPayload` call has a non-empty
`MessageID` exactly when it succeeded: every failure (retries exhausted,
permanent 4xx, cancellation) carries the empty message ID even though the
generated `msg_<uuid>` was transmitted in the `svix-id` header of every
attempt, and a success carries that `msg_<uuid>`. -/
theorem claim_C10_messageID_iff_success (oracle : Nat → Client2.AttemptOutcome)
    (ctxDone : Nat → Bool) (url : List Char) (maxRetries : Nat) (key : List Nat)
    (uuid : List Char) (signNow : Int) (payload : Json) :
    ((Client2.sendPayload oracle ctxDone url maxRetries key uuid signNow payload).resp.messageID
        ≠ []
      ↔ (Client2.sendPayload oracle ctxDone url maxRetries key uuid signNow
          payload).resp.success = true) ∧
    ((Client2.sendPayload oracle ctxDone url maxRetries key uuid signNow
        payload).resp.success = true →
      (Client2.sendPayload oracle ctxDone url maxRetries key uuid signNow
        payload).resp.messageID = 'm' :: 's' :: 'g' :: '_' :: uuid) ∧
    (∀ x ∈ (Client2.sendPayload oracle ctxDone url maxRetries key uuid signNow payload).trace,
      x.svixId = 'm' :: 's' :: 'g' :: '_' :: uuid) := by
  obtain ⟨n, hn, htr, hres⟩ := Client2.retryLoop_shape oracle ctxDone url
    ('m' :: 's' :: 'g' :: '_' :: uuid) signNow
    (svixSign key ('m' :: 's' :: 'g' :: '_' :: uuid) signNow (emitVal payload))
    (emitVal payload) (maxRetries - 1) 0 0 []
  unfold Client2.sendPayload Client2.sendWithRetry
  refine ⟨?_, ?_, ?_⟩
  · rcases hres with ⟨hs, hm, _⟩ | ⟨hs, hm, _⟩
    · rw [hs, hm]
      simp
    · rw [hs, hm]
      simp
  · intro hs
    rcases hres with ⟨_, hm, _⟩ | ⟨hs2, _, _⟩
    · exact hm
    · rw [hs] at hs2
      cases hs2
  · intro x hx
    rw [htr] at hx
    simp only [List.nil_append] at hx
    rw [List.eq_of_mem_replicate hx]
    rfl

/-! ## Claim C8: cancellation -/

/-- C8 counterexample: a run cancelled after its first attempt (budget 3
remaining) returns a response identical to plain exhaustion with
`maxRetries = 1` — the error is the last server error, not a distinct
cancellation class, which `Client2.WErr` does not even contain. -/
theorem claim_C8_counterexample :
    (Client2.sendWithRetry (fun _ => .httpStatus 500 []) (fun k => decide (0 < k))
        [] 3 [] 0 [] []).resp
      = (Client2.sendWithRetry (fun _ => .httpStatus 500 []) (fun _ => false)
        [] 1 [] 0 [] []).resp ∧
    (Client2.sendWithRetry (fun _ => .httpStatus 500 []) (fun k => decide (0 < k))
        [] 3 [] 0 [] []).resp.error = some (.serverErr 500 []) ∧
    (Client2.sendWithRetry (fun _ => .httpStatus 500 []) (fun k => decide (0 < k))
        [] 3 [] 0 [] []).trace.length = 1 := by
  have hc := Client2.retryLoop_cancelAfter_const5xx 500 [] (le_refl 500) [] [] 0 [] []
    0 2 0 0 [] (by omega) (by omega)
  have he := Client2.retryLoop_const5xx 500 [] (le_refl 500) [] [] 0 [] [] 0 0 0 []
  unfold Client2.sendWithRetry
  rw [hc, he]
  exact ⟨rfl, rfl, rfl⟩

/-- C8 (amended): a cancellation signal observed at any point terminates
the loop immediately — no attempt beyond the one in flight when the
context becomes done — and the result is a failure; but the error it
carries is the last attempt's network or server error (here the last 500),
indistinguishable from plain exhaustion, because the client discards the
context error `backoff.Retry` returns and `WErr` has no cancellation
class; the simple client variant observes no cancellation at all. -/
theorem claim_C8_cancellation_stops_loop (url msgID sig body : List Char) (ts : Int)
    (rbody : List Char) (n m : Nat) (hm : m + 1 ≤ n) :
    (Client2.sendWithRetry (fun _ => .httpStatus 500 rbody) (fun j => decide (m < j))
        url n msgID ts sig body).trace.length = m + 1 ∧
    (Client2.sendWithRetry (fun _ => .httpStatus 500 rbody) (fun j => decide (m < j))
        url n msgID ts sig body).resp
      = ⟨false, 500, [], some (.serverErr 500 rbody)⟩ ∧
    (Client2.sendWithRetry (fun _ => .httpStatus 500 rbody) (fun j => decide (m < j))
        url n msgID ts sig body).resp
      = (Client2.sendWithRetry (fun _ => .httpStatus 500 rbody) (fun _ => false)
        url (m + 1) msgID ts sig body).resp := by
  have hc := Client2.retryLoop_cancelAfter_const5xx 500 rbody (le_refl 500) url msgID ts
    sig body m (n - 1) 0 0 [] (by omega) (by omega)
  have he := Client2.retryLoop_const5xx 500 rbody (le_refl 500) url msgID ts sig body
    (m + 1 - 1) 0 0 []
  unfold Client2.sendWithRetry
  rw [hc, he]
  refine ⟨by simp, rfl, rfl⟩

/-- C8 witness: cancellation after the second attempt of a five-attempt
budget. -/
theorem claim_C8_witness :
    (1 : Nat) + 1 ≤ 5 ∧
    (Client2.sendWithRetry (fun _ => .httpStatus 500 []) (fun j => decide (1 < j))
        [] 5 [] 0 [] []).trace.length = 2 ∧
    (Client2.sendWithRetry (fun _ => .httpStatus 500 []) (fun j => decide (1 < j))
        [] 5 [] 0 [] []).resp = ⟨false, 500, [], some (.serverErr 500 [])⟩ := by
  have h := claim_C8_cancellation_stops_loop [] [] [] [] 0 [] 5 1 (by decide)
  exact ⟨by decide, h.1, h.2.1⟩

/-! ## Claim C9: backoff schedule -/

/-- C9 counterexample: the configured backoff multiplies by the library
default 1.5, not 2: the second base interval is 1.5 seconds, and the
simple client's doubling schedule is uncapped, exceeding the 30-second
default maximum (in seconds) by attempt 6. -/
theorem claim_C9_counterexample :
    baseInterval 30000000000 1 = 1500000000 ∧
    baseInterval 30000000000 1 ≠ 2 * baseInterval 30000000000 0 ∧
    client1Backoff 6 = 64 ∧ 30 < client1Backoff 6 := by
  refine ⟨?_, ?_, ?_, ?_⟩ <;> norm_num [baseInterval, nextInterval, client1Backoff]

/-- C9 (amended): the context-aware client's backoff starts at 1 second,
multiplies by 1.5 each retry (the library default, not doubling), is
capped at the configured maximum from the second interval on, and the
emitted delay is jittered within half an interval around the base; the
simple client's backoff starts at 1 second and doubles each attempt but
has no cap and no jitter. -/
theorem claim_C9_backoff_schedule (maxI : Nat) :
    baseInterval maxI 0 = 1000000000 ∧
    (∀ k, baseInterval maxI (k + 1)
        = if 2 * maxI ≤ 3 * baseInterval maxI k then maxI
          else baseInterval maxI k * 3 / 2) ∧
    (∀ k, baseInterval maxI (k + 1) ≤ maxI) ∧
    (∀ cur rand, rand ≤ cur →
        cur - cur / 2 ≤ jitteredInterval cur rand ∧
        jitteredInterval cur rand ≤ 2 * cur - cur / 2) ∧
    (∀ k, client1Backoff (k + 1) = 2 * client1Backoff k) ∧
    (∀ bound, ∃ k, bound < client1Backoff k) := by
  refine ⟨rfl, fun k => rfl, ?_, ?_, ?_, ?_⟩
  · intro k
    simp only [baseInterval, nextInterval]
    by_cases h : 2 * maxI ≤ 3 * baseInterval maxI k
    · rw [if_pos h]
    · rw [if_neg h]
      omega
  · intro cur rand h
    unfold jitteredInterval
    omega
  · intro k
    simp [client1Backoff, pow_succ]
    ring
  · intro bound
    exact ⟨bound, by simpa [client1Backoff] using Nat.lt_two_pow bound⟩

/-- C9 witness: concrete schedule values at a 30-second cap. -/
theorem claim_C9_witness :
    baseInterval 30000000000 0 = 1000000000 ∧
    baseInterval 30000000000 10 ≤ 30000000000 ∧
    (500000000 : Nat) ≤ 1000000000 ∧
    jitteredInterval 1000000000 500000000 ≤ 2 * 1000000000 - 1000000000 / 2 := by
  obtain ⟨h0, _, hcap, hjit, _, _⟩ := claim_C9_backoff_schedule 30000000000
  exact ⟨h0, hcap 9, by decide, (hjit 1000000000 500000000 (by decide)).2⟩

/-! ## Claim C7: dispatch isolation -/

/-- Characterization of sequential handler execution. -/
theorem runSeq_spec (hs : List Dispatcher.HandlerSpec) :
    (Dispatcher.runSeq hs).invoked = hs.map (fun h => h.hid) ∧
    (Dispatcher.runSeq hs).reported
      = hs.filterMap (fun h => h.fails.map (fun e => (h.hid, e))) := by
  induction hs with
  | nil => exact ⟨rfl, rfl⟩
  | cons h t ih =>
      cases hf : h.fails with
      | none => simp [Dispatcher.runSeq, hf, ih.1, ih.2]
      | some e => simp [Dispatcher.runSeq, hf, ih.1, ih.2]

/-- C7: in sequential mode, every handler registered for the event and
every wildcard handler runs, in registration order, whether or not earlier
handlers threw; the error callback receives exactly one report per failing
handler, in order; and `executeHandlers` itself returns normally, so no
handler error reaches the dispatch caller or the HTTP response. -/
theorem claim_C7_dispatch_isolation (reg : Dispatcher.Registry) (event : List Char) :
    (Dispatcher.executeHandlersSeq reg event).invoked
      = (Dispatcher.lookup reg.handlers event ++ reg.wildcard).map (fun h => h.hid) ∧
    (Dispatcher.executeHandlersSeq reg event).reported
      = (Dispatcher.lookup reg.handlers event ++ reg.wildcard).filterMap
          (fun h => h.fails.map (fun e => (h.hid, e))) :=
  runSeq_spec _

/-! ## Closed witnesses for the universally quantified claims -/

/-- C6 witness: a concrete send makes at least one attempt. -/
theorem claim_C6_witness :
    (Client2.sendPayload (fun _ => .httpStatus 500 []) (fun _ => false) [] 2 [5]
        "u".data 0 .null).trace ≠ [] :=
  (claim_C6_envelope_signed_once (fun _ => .httpStatus 500 []) (fun _ => false) [] 2 [5]
    "u".data 0 .null (fun _ => .httpStatus 500 []) [] [] 0 [] [] 1).1.1

/-- A concrete registry: two handlers on one event, the first of which
throws, plus one wildcard handler. -/
def sampleRegistry : Dispatcher.Registry :=
  ⟨[("order.created".data, [⟨1, some "boom".data⟩, ⟨2, none⟩])], [⟨3, none⟩]⟩

/-- C7 witness: with a throwing first handler, all three handlers run in
order and exactly one error is reported. -/
theorem claim_C7_witness :
    (Dispatcher.executeHandlersSeq sampleRegistry "order.created".data).invoked = [1, 2, 3] ∧
    (Dispatcher.executeHandlersSeq sampleRegistry "order.created".data).reported
      = [(1, "boom".data)] := by
  have h := claim_C7_dispatch_isolation sampleRegistry "order.created".data
  exact ⟨h.1.trans (by rfl), h.2.trans (by rfl)⟩

/-- C10 witness: a send that succeeds on the first attempt carries the
generated message ID. -/
theorem claim_C10_witness :
    (Client2.sendPayload (fun _ => .httpStatus 200 []) (fun _ => false) [] 3 [7]
        "u".data 0 .null).resp.messageID = 'm' :: 's' :: 'g' :: '_' :: "u".data :=
  (claim_C10_messageID_iff_success (fun _ => .httpStatus 200 []) (fun _ => false) [] 3 [7]
    "u".data 0 .null).2.1 (by rfl)
